import Mathlib

/-!
# Verification of the FNOL claims-processing pipeline (`claims_agent.py`)

This file gives a shallow embedding of the core pipeline of the claims agent:
text normalization, regex-based field extraction, currency parsing,
inconsistency detection, route recommendation and the orchestrating
`process_document` function.  Python's `re.search` is embedded by a small
backtracking matcher (`matchList` / `reSearch`) that is faithful to the
leftmost-match, priority-ordered-alternative, greedy/lazy semantics of the
concrete patterns appearing in the source.  Python `float` values are
modelled as exact rationals (`ℚ`); the decimal-literal conversions performed
by the source are exact in this model.  Python's Unicode-aware character
classes (`\s`, `\w`, `str.lower`) are modelled on the character sets that
the source's patterns and data actually exercise (ASCII plus the standard
Unicode whitespace list for `\s`).
-/

namespace ClaimsAgent

/-- Model of Python's lower-casing on characters (ASCII range, which is what
the source's labels and keywords exercise). -/
def toLowerCh (c : Char) : Char :=
  if 'A' ≤ c ∧ c ≤ 'Z' then Char.ofNat (c.toNat + 32) else c

/-- Model of Python's regex class `\s` (and `str.strip()` whitespace): ASCII
whitespace plus the standard Unicode whitespace characters. -/
def pySpace (c : Char) : Bool :=
  c == ' ' || c == '\t' || c == '\n' || c == '\r' || c == '\x0b' || c == '\x0c' ||
  c == '\x1c' || c == '\x1d' || c == '\x1e' || c == '\x1f' || c == '\x85' || c == '\xa0' ||
  c == '\u1680' || ('\u2000' ≤ c && c ≤ '\u200a') || c == '\u2028' || c == '\u2029' ||
  c == '\u202f' || c == '\u205f' || c == '\u3000'

/-- Model of Python's regex class `\w` (word characters; ASCII range). -/
def isWordCh (c : Char) : Bool := c.isAlphanum || c == '_'

/-- The class `[0-9,]` used by the currency regex. -/
def digitCommaCh (c : Char) : Bool := c.isDigit || c == ','

/-- Regular-expression abstract syntax for the patterns occurring in
`claims_agent.py`.  All repetitions in the source's patterns apply to
single-character classes, which is reflected in the constructors:
`star`/`plus` are greedy, `plusLazy` is the lazy `+?`, `eol` is Python's `$`
(end of string, or just before a terminating newline). -/
inductive Pat where
  | eps
  | cls (f : Char → Bool)
  | seq (a b : Pat)
  | alt (a b : Pat)
  | opt (a : Pat)
  | star (f : Char → Bool)
  | plus (f : Char → Bool)
  | plusLazy (f : Char → Bool)
  | eol

/-- Length of the maximal run of characters satisfying `f` at the front. -/
def countLeading (f : Char → Bool) (l : List Char) : Nat :=
  (l.takeWhile f).length

/-- All ways a pattern can match a prefix of `s`, as the list of remaining
suffixes in backtracking priority order (first = the alternative Python's
engine commits to first). -/
def matchList : Pat → List Char → List (List Char)
  | .eps, s => [s]
  | .cls f, s =>
    match s with
    | [] => []
    | c :: r => if f c then [r] else []
  | .seq a b, s => (matchList a s).flatMap (fun r => matchList b r)
  | .alt a b, s => matchList a s ++ matchList b s
  | .opt a, s => matchList a s ++ [s]
  | .star f, s =>
    let k := countLeading f s
    (List.range (k + 1)).map (fun i => s.drop (k - i))
  | .plus f, s =>
    let k := countLeading f s
    (List.range k).map (fun i => s.drop (k - i))
  | .plusLazy f, s =>
    let k := countLeading f s
    (List.range k).map (fun i => s.drop (i + 1))
  | .eol, s => if s = [] ∨ s = ['\n'] then [s] else []

/-- A search pattern with exactly one capturing group, as every pattern in
the source has: `pre ( grp ) post`. -/
structure SearchPat where
  pre : Pat
  grp : Pat
  post : Pat

/-- Try to match a search pattern at the current position, returning the
first (in backtracking priority order) successful capture of group 1. -/
def tryAt (p : SearchPat) (s : List Char) : Option (List Char) :=
  (matchList p.pre s).findSome? fun r1 =>
    (matchList p.grp r1).findSome? fun r2 =>
      if (matchList p.post r2).isEmpty then none
      else some (r1.take (r1.length - r2.length))

/-- Scan start positions left to right, as `re.search` does; returns the
start index and the group-1 capture of the leftmost match. -/
def searchAux (p : SearchPat) : List Char → Nat → Option (Nat × List Char)
  | s, pos =>
    match tryAt p s with
    | some cap => some (pos, cap)
    | none =>
      match s with
      | [] => none
      | _ :: rest => searchAux p rest (pos + 1)

/-- Embedding of `re.search(pattern, text)` restricted to group 1. -/
def reSearch (p : SearchPat) (s : List Char) : Option (Nat × List Char) :=
  searchAux p s 0

/-- A single exact character (used for `\n`, `:`, `.`, `#`). -/
def chr (c : Char) : Pat := .cls (fun x => x == c)

/-- A single literal character matched case-insensitively (`re.IGNORECASE`). -/
def litCI (c : Char) : Pat := .cls (fun x => toLowerCh x == toLowerCh c)

/-- A literal word matched case-insensitively. -/
def lits (w : String) : Pat := w.data.foldr (fun c acc => .seq (litCI c) acc) .eps

/-- Sequence of patterns. -/
def seqs (ps : List Pat) : Pat := ps.foldr .seq .eps

/-- `\s*` -/
def wsStar : Pat := .star pySpace

/-- `[:\-]` -/
def colonDash : Pat := .cls (fun c => c == ':' || c == '-')

/-- `([^\n]+)` — the capture group of the single-line field patterns. -/
def lineRest : Pat := .plus (fun c => c != '\n')

/-- The capture and terminator of the description patterns:
`([\s\S]+?)(?:\n\w[\w\s]*:|$)`. -/
def descGrp : Pat := .plusLazy (fun _ => true)

def descPost : Pat :=
  .alt (seqs [chr '\n', .cls isWordCh, .star (fun c => isWordCh c || pySpace c), chr ':']) .eol

/-- `FIELD_PATTERNS` of the source: the ordered catalog of field names to
ordered alternative patterns, each encoded as `pre(grp)post`. -/
def FIELD_PATTERNS : List (String × List SearchPat) :=
  [ ("policyNumber",
      [⟨seqs [lits "policy", wsStar,
              .opt (.alt (lits "number") (.alt (seqs [lits "no", .opt (chr '.')]) (chr '#'))),
              wsStar, colonDash, wsStar],
        .plus (fun c => c.isAlpha || c.isDigit || c == '-'), .eps⟩]),
    ("policyholderName",
      [⟨seqs [lits "policyholder", wsStar, lits "name", wsStar, colonDash, wsStar], lineRest, .eps⟩,
       ⟨seqs [lits "insured", wsStar, lits "name", wsStar, colonDash, wsStar], lineRest, .eps⟩]),
    ("effectiveDates",
      [⟨seqs [lits "effective", wsStar, lits "date", .opt (litCI 's'), wsStar, colonDash, wsStar],
        lineRest, .eps⟩,
       ⟨seqs [lits "policy", wsStar, lits "period", wsStar, colonDash, wsStar], lineRest, .eps⟩]),
    ("incidentDate",
      [⟨seqs [.alt (lits "incident") (lits "loss"), wsStar, lits "date", wsStar, colonDash, wsStar],
        lineRest, .eps⟩]),
    ("incidentTime",
      [⟨seqs [.alt (lits "incident") (lits "loss"), wsStar, lits "time", wsStar, colonDash, wsStar],
        lineRest, .eps⟩]),
    ("incidentLocation",
      [⟨seqs [.alt (lits "incident") (lits "loss"), wsStar, lits "location", wsStar, colonDash,
              wsStar], lineRest, .eps⟩]),
    ("incidentDescription",
      [⟨seqs [.alt (lits "incident") (lits "loss"), wsStar, lits "description", wsStar, colonDash,
              wsStar], descGrp, descPost⟩,
       ⟨seqs [lits "description", wsStar, colonDash, wsStar], descGrp, descPost⟩]),
    ("claimant",
      [⟨seqs [lits "claimant", wsStar, colonDash, wsStar], lineRest, .eps⟩]),
    ("thirdParties",
      [⟨seqs [lits "third", wsStar, lits "part", .alt (litCI 'y') (lits "ies"), wsStar, colonDash,
              wsStar], lineRest, .eps⟩]),
    ("contactDetails",
      [⟨seqs [lits "contact", wsStar, lits "detail", .opt (litCI 's'), wsStar, colonDash, wsStar],
        lineRest, .eps⟩,
       ⟨seqs [lits "phone", wsStar, colonDash, wsStar], lineRest, .eps⟩,
       ⟨seqs [lits "email", wsStar, colonDash, wsStar], lineRest, .eps⟩]),
    ("assetType",
      [⟨seqs [lits "asset", wsStar, lits "type", wsStar, colonDash, wsStar], lineRest, .eps⟩,
       ⟨seqs [lits "vehicle", wsStar, lits "type", wsStar, colonDash, wsStar], lineRest, .eps⟩]),
    ("assetId",
      [⟨seqs [lits "asset", wsStar, lits "id", wsStar, colonDash, wsStar], lineRest, .eps⟩,
       ⟨seqs [lits "vin", wsStar, colonDash, wsStar], lineRest, .eps⟩,
       ⟨seqs [lits "registration", wsStar,
              .opt (.alt (seqs [lits "no", .opt (chr '.')]) (lits "number")),
              wsStar, colonDash, wsStar], lineRest, .eps⟩]),
    ("estimatedDamage",
      [⟨seqs [lits "estimated", wsStar, lits "damage", wsStar, colonDash, wsStar], lineRest, .eps⟩]),
    ("claimType",
      [⟨seqs [lits "claim", wsStar, lits "type", wsStar, colonDash, wsStar], lineRest, .eps⟩]),
    ("attachments",
      [⟨seqs [lits "attachment", .opt (litCI 's'), wsStar, colonDash, wsStar], lineRest, .eps⟩]),
    ("initialEstimate",
      [⟨seqs [lits "initial", wsStar, lits "estimate", wsStar, colonDash, wsStar], lineRest, .eps⟩])
  ]

/-- `MANDATORY_FIELDS` of the source. -/
def MANDATORY_FIELDS : List String :=
  ["policyNumber", "policyholderName", "effectiveDates", "incidentDate", "incidentTime",
   "incidentLocation", "incidentDescription", "claimant", "contactDetails", "assetType",
   "assetId", "estimatedDamage", "claimType", "attachments", "initialEstimate"]

/-- `normalize`: `re.sub(r"\r\n?", "\n", text)`. -/
def normalize : List Char → List Char
  | [] => []
  | '\r' :: '\n' :: rest => '\n' :: normalize rest
  | '\r' :: rest => '\n' :: normalize rest
  | c :: rest => c :: normalize rest

/-- The whitespace-collapsing substitution `re.sub(r"\s+", " ", value)`;
the boolean flag records whether the previous character was whitespace
(i.e. whether we are inside a run already replaced by one space). -/
def collapseAux : List Char → Bool → List Char
  | [], _ => []
  | c :: rest, prevWs =>
    if pySpace c then
      if prevWs then collapseAux rest true else ' ' :: collapseAux rest true
    else c :: collapseAux rest false

def collapseWs (l : List Char) : List Char := collapseAux l false

/-- The characters stripped from both ends by `.strip(" .\n\t")`. -/
def STRIP_CHARS : List Char := [' ', '.', '\n', '\t']

def lstripBy (f : Char → Bool) (l : List Char) : List Char := l.dropWhile f

def rstripBy (f : Char → Bool) (l : List Char) : List Char :=
  (l.reverse.dropWhile f).reverse

/-- `str.strip(chars)`: strip characters from both ends. -/
def stripChars (l : List Char) : List Char :=
  rstripBy (fun c => STRIP_CHARS.contains c) (lstripBy (fun c => STRIP_CHARS.contains c) l)

/-- The post-processing of a captured value in `extract_field`:
`re.sub(r"\s+", " ", match.group(1)).strip(" .\n\t")`. -/
def postprocess (l : List Char) : List Char := stripChars (collapseWs l)

/-- `extract_field`: first pattern (in declaration order) whose search
succeeds with a non-empty post-processed capture wins; an empty
post-processed value falls through to the next alternative. -/
def extract_field (text : List Char) : List SearchPat → Option (List Char)
  | [] => none
  | p :: ps =>
    match reSearch p text with
    | none => extract_field text ps
    | some (_, cap) =>
      let value := postprocess cap
      if value = [] then extract_field text ps else some value

/-- The capture group of the currency regex
`([0-9][0-9,]*(?:\.[0-9]+)?)`. -/
def currencyGrp : Pat :=
  .seq (.cls Char.isDigit)
    (.seq (.star digitCommaCh)
      (.opt (.seq (chr '.') (.plus Char.isDigit))))

def currencyPat : SearchPat := ⟨.eps, currencyGrp, .eps⟩

/-- Numeric value of a digit character. -/
def digitVal (c : Char) : Nat := c.toNat - 48

/-- Value of a digit string read as a base-10 natural (`int`-style). -/
def digitsToNat (cs : List Char) : Nat :=
  cs.foldl (fun a c => 10 * a + digitVal c) 0

/-- The exact decimal magnitude of `token.replace(",", "")` for the tokens
produced by the currency regex — the real number that CPython's correctly
rounded `float()` then rounds to binary64 (`roundFl` performs that
rounding; `parse_currency_float` is the composite): strip commas, split at
the optional decimal point, and read `A.B` as the rational
`(A·10^k + B) / 10^k` where `k` is the number of fractional digits
(`mkRat` keeps the definition kernel-computable; `ratOfTok_eq` below
restates it as `A + B / 10^k`). -/
def ratOfTok (tok : List Char) : ℚ :=
  let cleaned := tok.filter (fun c => c != ',')
  let ip := cleaned.takeWhile (fun c => c != '.')
  let rest := cleaned.dropWhile (fun c => c != '.')
  match rest with
  | [] => (digitsToNat ip : ℚ)
  | _ :: fd =>
    mkRat (digitsToNat ip * 10 ^ fd.length + digitsToNat fd) (10 ^ fd.length)

/-- The token layer of the source's `parse_currency`: `None` for an absent
or empty value or when the regex finds no numeric token, otherwise the
exact decimal magnitude of the first token. The source applies `float` to
the token text; `parse_currency_float` composes this layer with the
binary64 rounding `roundFl` and is the faithful model of the source
function. -/
def parse_currency (v : Option (List Char)) : Option ℚ :=
  match v with
  | none => none
  | some s =>
    if s = [] then none
    else
      match reSearch currencyPat s with
      | none => none
      | some (_, tok) => some (ratOfTok tok)

/-- Association-list model of the Python `dict` of extracted fields
(keys are unique; insertion order is catalog order). -/
def dictGet (fields : List (String × List Char)) (k : String) : Option (List Char) :=
  (fields.find? (fun p => p.1 == k)).map (fun p => p.2)

def dictGetD (fields : List (String × List Char)) (k : String) (d : List Char) : List Char :=
  (dictGet fields k).getD d

/-- `str.strip()` with no arguments (whitespace). -/
def pyStripWs (l : List Char) : List Char := rstripBy pySpace (lstripBy pySpace l)

/-- `str.lower()`. -/
def pyLower (l : List Char) : List Char := l.map toLowerCh

/-- Bit length of a natural number (`0` for `0`); fuel-based so that it is
kernel-computable (`n` itself is always enough fuel). -/
def bitsAux : ℕ → ℕ → ℕ
  | 0, _ => 0
  | f + 1, n => if n = 0 then 0 else bitsAux f (n / 2) + 1

def bits (n : ℕ) : ℕ := bitsAux n n

/-- Round the fraction `a / b` (`b ≠ 0`) to the nearest integer, ties to
even — the IEEE-754 default rounding. -/
def rne (a b : ℕ) : ℕ :=
  let t := a / b
  let r := a % b
  if 2 * r < b then t
  else if b < 2 * r then t + 1
  else if t % 2 = 0 then t else t + 1

/-- A CPython `float` as this program produces them: a non-negative finite
binary64 value (held exactly as the rational it denotes) or `inf` — the
overflow result of `float(token)`. No operation of the program yields `nan`
or a negative value. -/
inductive PyFloat where
  | fin (q : ℚ)
  | inf
  deriving DecidableEq

/-- Decides `2 ^ c ≤ n / d` (for `n, d ≥ 1`) in `ℕ` arithmetic. -/
def pow2Le (c : ℤ) (n d : ℕ) : Bool :=
  if 0 ≤ c then decide (d * 2 ^ c.toNat ≤ n) else decide (d ≤ n * 2 ^ (-c).toNat)

/-- Correctly rounded conversion of a non-negative rational to IEEE-754
binary64 — the semantics of CPython's `float(decimal_string)`: round to
nearest with ties to even at the quantum `2 ^ e`,
`e = max(E - 52, -1074)` where `2 ^ E ≤ q < 2 ^ (E + 1)` (so 53
significand bits, gradual underflow below `2 ^ -1022`), and overflow to
`inf` when the rounded value reaches `2 ^ 1024`. -/
def roundFl (q : ℚ) : PyFloat :=
  let n := q.num.toNat
  let d := q.den
  if n = 0 then PyFloat.fin 0
  else
    let c : ℤ := (bits n : ℤ) - (bits d : ℤ)
    let E : ℤ := if pow2Le c n d then c else c - 1
    let e : ℤ := max (E - 52) (-1074)
    if 0 ≤ e then
      let m := rne n (d * 2 ^ e.toNat)
      if 2 ^ 1024 ≤ m * 2 ^ e.toNat then PyFloat.inf
      else PyFloat.fin ((m * 2 ^ e.toNat : ℕ) : ℚ)
    else PyFloat.fin (mkRat (rne (n * 2 ^ (-e).toNat) d) (2 ^ (-e).toNat))

/-- `float` comparison `<` on the program's values (`inf` exceeds every
finite value; finite doubles compare as the rationals they denote). -/
def fl_lt : PyFloat → PyFloat → Bool
  | PyFloat.fin a, PyFloat.fin b => decide (a < b)
  | PyFloat.fin _, PyFloat.inf => true
  | PyFloat.inf, _ => false

/-- Binary64 multiplication by the constant `1.5` (itself exact in
binary64): the exact product `q * 3/2`, rounded back to a double;
`inf * 1.5 = inf`. -/
def fl_mul15 : PyFloat → PyFloat
  | PyFloat.fin q => roundFl (mkRat (q.num * 3) (q.den * 2))
  | PyFloat.inf => PyFloat.inf

/-- `parse_currency` of the source: the exact token magnitude
(`parse_currency` below, the token layer) converted by `float(...)`,
i.e. rounded to the nearest binary64 by `roundFl`, overflowing to `inf`
on huge tokens. -/
def parse_currency_float (v : Option (List Char)) : Option PyFloat :=
  (parse_currency v).map roundFl

def ISSUE_ESTIMATE : List Char :=
  "Initial estimate is significantly higher than estimated damage.".data

def ISSUE_INJURY : List Char :=
  "Injury claim has missing/invalid asset type.".data

/-- `detect_inconsistencies`: the two business rules, in source order.
The comparison `initial_estimate > estimated_damage * 1.5` is binary64
throughout: both operands are `float()`-parsed doubles and the product is
itself rounded (`1.5` alone is exact in binary64). -/
def detect_inconsistencies (fields : List (String × List Char)) : List (List Char) :=
  let estimated_damage := parse_currency_float (dictGet fields "estimatedDamage")
  let initial_estimate := parse_currency_float (dictGet fields "initialEstimate")
  let issues₁ : List (List Char) :=
    match estimated_damage, initial_estimate with
    | some a, some b => if fl_lt (fl_mul15 a) b then [ISSUE_ESTIMATE] else []
    | _, _ => []
  let issues₂ : List (List Char) :=
    if pyLower (pyStripWs (dictGetD fields "claimType" [])) = "injury".data then
      let asset_type := pyLower (pyStripWs (dictGetD fields "assetType" []))
      if asset_type = [] ∨ asset_type = "n/a".data ∨ asset_type = "none".data then
        [ISSUE_INJURY]
      else []
    else []
  issues₁ ++ issues₂

/-- The keyword alternatives of `\b(fraud|inconsistent|staged)\b`, in the
order the regex tries them. -/
def FRAUD_WORDS : List (List Char) := ["fraud".data, "inconsistent".data, "staged".data]

/-- Case-insensitive match of a (lower-case) word against the front of the
text; returns the remaining suffix on success. -/
def ciMatch : List Char → List Char → Option (List Char)
  | [], s => some s
  | _ :: _, [] => none
  | w :: ws, c :: cs => if toLowerCh c == w then ciMatch ws cs else none

/-- The `\b` condition after the keyword: next character absent or not a
word character. -/
def afterOk : List Char → Bool
  | [] => true
  | c :: _ => !isWordCh c

/-- The `\b` condition before the keyword: previous character absent or not
a word character. -/
def prevOk : Option Char → Bool
  | none => true
  | some c => !isWordCh c

def matchesWordAt (w s : List Char) : Bool :=
  match ciMatch w s with
  | some rem => afterOk rem
  | none => false

/-- Left-to-right scan embedding `re.search(r"\b(fraud|inconsistent|staged)\b",
description, re.IGNORECASE) is not None`; `prev` is the character just before
the current position. -/
def scanFraud : Option Char → List Char → Bool
  | _, [] => false
  | prev, c :: cs =>
    (prevOk prev && FRAUD_WORDS.any (fun w => matchesWordAt w (c :: cs))) ||
      scanFraud (some c) cs

def hasFraudWord (s : List Char) : Bool := scanFraud none s

def ROUTE_INVESTIGATION : List Char := "Investigation Flag".data
def ROUTE_MANUAL : List Char := "Manual review".data
def ROUTE_SPECIALIST : List Char := "Specialist Queue".data
def ROUTE_FAST : List Char := "Fast-track".data

def REASON_FRAUD : List Char := "Description contains potential fraud indicators.".data
def REASON_MISSING : List Char := "One or more mandatory fields are missing.".data
def REASON_INJURY : List Char := "Claim type is injury and requires specialist handling.".data
def REASON_FAST : List Char := "Estimated damage is below 25,000 threshold.".data
def REASON_DEFAULT : List Char := "Claim does not qualify for fast-track based on current rules.".data

/-- `recommend_route`: the top-to-bottom cascade of the source. -/
def recommend_route (fields : List (String × List Char)) (missing_fields : List String) :
    List Char × List Char :=
  let description := dictGetD fields "incidentDescription" []
  let claim_type := pyLower (pyStripWs (dictGetD fields "claimType" []))
  let estimated_damage := parse_currency_float (dictGet fields "estimatedDamage")
  if hasFraudWord description then (ROUTE_INVESTIGATION, REASON_FRAUD)
  else if missing_fields ≠ [] then (ROUTE_MANUAL, REASON_MISSING)
  else if claim_type = "injury".data then (ROUTE_SPECIALIST, REASON_INJURY)
  else if (match estimated_damage with
           | some d => fl_lt d (PyFloat.fin 25000)
           | none => false) then (ROUTE_FAST, REASON_FAST)
  else (ROUTE_MANUAL, REASON_DEFAULT)

/-- The extraction loop of `process_document` (lines 153–157): apply
`extract_field` to every catalog entry, keeping successful fields in catalog
order. -/
def extracted_fields_of (text : List Char) : List (String × List Char) :=
  FIELD_PATTERNS.filterMap (fun fp =>
    (extract_field text fp.2).map (fun v => (fp.1, v)))

/-- The output record of the pipeline. -/
structure ClaimResult where
  extractedFields : List (String × List Char)
  missingFields : List String
  recommendedRoute : List Char
  reasoning : List Char
  deriving DecidableEq

/-- `" ".join(parts)`. -/
def joinSp (parts : List (List Char)) : List Char := List.intercalate [' '] parts

/-- `process_document` (the pipeline on the already-read document text;
file reading is an out-of-scope adapter). -/
def process_document (text : List Char) : ClaimResult :=
  let t := normalize text
  let extracted := extracted_fields_of t
  let missing_fields := MANDATORY_FIELDS.filter (fun f => !(extracted.any (fun p => p.1 == f)))
  let inconsistencies := detect_inconsistencies extracted
  let rb := recommend_route extracted missing_fields
  let route := if inconsistencies.isEmpty then rb.1 else ROUTE_MANUAL
  let reasoning_parts :=
    [rb.2] ++ (if inconsistencies.isEmpty then []
               else [("Inconsistencies detected: ".data ++ joinSp inconsistencies)])
  { extractedFields := extracted
    missingFields := missing_fields
    recommendedRoute := route
    reasoning := joinSp reasoning_parts }


/-- Spec-side: the optional `.digits` fraction of a numeric token (kept
only when at least one digit follows the point). -/
def fracOf : List Char → List Char
  | [] => []
  | x :: t =>
    if x = '.' then
      (if t.takeWhile Char.isDigit = [] then [] else '.' :: t.takeWhile Char.isDigit)
    else []

/-- Spec-side: the remainder of the string after the numeric token starting
at the head. -/
def remAfterTok : List Char → List Char
  | [] => []
  | _ :: rest =>
    match rest.dropWhile digitCommaCh with
    | [] => []
    | x :: t =>
      if x = '.' then
        (if t.takeWhile Char.isDigit = [] then x :: t else t.dropWhile Char.isDigit)
      else x :: t

/-- Spec-side: the numeric token starting at the head (a digit), i.e. the
digit-initiated run of digits and commas with an optional single decimal
point followed by fractional digits. -/
def tokenAt : List Char → List Char
  | [] => []
  | c :: rest => c :: (rest.takeWhile digitCommaCh ++ fracOf (rest.dropWhile digitCommaCh))

/-- Spec-side: the first numeric token of the string, if any. -/
def spec_first_token : List Char → Option (List Char)
  | [] => none
  | c :: rest => if c.isDigit then some (tokenAt (c :: rest)) else spec_first_token rest

/-- The character of a decimal digit value. -/
def digitChar (d : ℕ) : Char := Char.ofNat (48 + d)

/-- Decimal digits of a natural number (fuel-based so that it is
kernel-computable; `natToDigits` supplies sufficient fuel). -/
def natToDigitsAux : ℕ → ℕ → List Char
  | 0, _ => []
  | f + 1, n => if n < 10 then [digitChar n] else natToDigitsAux f (n / 10) ++ [digitChar (n % 10)]

def natToDigits (n : ℕ) : List Char := natToDigitsAux (n + 1) n

/-- Number of decimal digits of `n` (one digit for `n = 0`). -/
def digitCount (n : ℕ) : ℕ := (natToDigits n).length

/-- Fractional decimal digits of `r / den` by long division (`fuel` bounds
the number of digits; generation stops when the remainder is zero, which
yields the shortest digit sequence). -/
def fracDigits (den : ℕ) : ℕ → ℕ → List ℕ
  | 0, _ => []
  | f + 1, r => if r = 0 then [] else (10 * r) / den :: fracDigits den f ((10 * r) % den)

/-- The value of a fractional digit sequence `0.d₁d₂…`. -/
def fracValQ (ds : List ℕ) : ℚ := ds.foldr (fun d acc => ((d : ℚ) + acc) / 10) 0

/-- Positional rendering of `n / d` with at least one fractional digit. -/
def positionalStr (n d : ℕ) : List Char :=
  let fds := fracDigits d d (n % d)
  natToDigits (n / d) ++ '.' :: (if fds = [] then ['0'] else fds.map digitChar)

/-- Exponent suffix of scientific notation: sign and at least two digits. -/
def expoStr (sign : Char) (k : ℕ) : List Char :=
  'e' :: sign :: (if k < 10 then '0' :: natToDigits k else natToDigits k)

/-- Scientific rendering for `0 < n/d < 1e-4`. -/
def sciSmall (n d : ℕ) : List Char :=
  let k0 := digitCount d - digitCount n
  let k := if d ≤ n * 10 ^ k0 then k0 else k0 + 1
  let fds := fracDigits d d (n * 10 ^ k % d)
  (digitChar (n * 10 ^ k / d) :: (if fds = [] then [] else '.' :: fds.map digitChar)) ++
    expoStr '-' k

/-- Scientific rendering for `n/d ≥ 1e16`. -/
def sciBig (n d : ℕ) : List Char :=
  let e := digitCount (n / d) - 1
  let fds := fracDigits (d * 10 ^ e) (d * 10 ^ e) (n % (d * 10 ^ e))
  (digitChar (n / (d * 10 ^ e)) :: (if fds = [] then [] else '.' :: fds.map digitChar)) ++
    expoStr '+' e

/-- Modelled from Python's `str` on a non-negative `float`, over the exact
rationals of this embedding: `"0.0"` for zero, positional digits with at
least one fractional digit for `1e-4 ≤ q < 1e16`, and scientific notation
with a signed two-digit-minimum exponent otherwise — the notation
thresholds of CPython's float `repr`.  Digit sequences are the exact
shortest decimal expansion, which coincides with CPython's shortest
round-trip digits on the decimal values produced by `parse_currency`. -/
def pyFloatStr (q : ℚ) : List Char :=
  let n := q.num.toNat
  let d := q.den
  if n = 0 then "0.0".data
  else if n * 10000 < d then sciSmall n d
  else if d * 10 ^ 16 ≤ n then sciBig n d
  else positionalStr n d

/-- Spec-side (refinement) reading of rule 1 of the route cascade: the
text `s` contains the lower-case keyword `w` case-insensitively as a whole
word (an occurrence not adjacent to any word character). -/
def WholeWordCI (w s : List Char) : Prop :=
  ∃ a m b, s = a ++ m ++ b ∧ m.map toLowerCh = w ∧
    (∀ c, a.getLast? = some c → isWordCh c = false) ∧
    (∀ c, b.head? = some c → isWordCh c = false)

/-! ## Basic lemmas about the pipeline combinators -/

theorem joinSp_single (x : List Char) : joinSp [x] = x := by
  simp [joinSp, List.intercalate]

theorem joinSp_pair (a b : List Char) : joinSp [a, b] = a ++ [' '] ++ b := by
  simp [joinSp, List.intercalate]

theorem keys_any (l : List (String × List Char)) (f : String) :
    (l.any (fun p => p.1 == f)) = true ↔ f ∈ l.map Prod.fst := by
  constructor
  · intro h
    rcases List.any_eq_true.mp h with ⟨p, hp, he⟩
    exact List.mem_map.mpr ⟨p, hp, beq_iff_eq.mp he⟩
  · intro h
    rcases List.mem_map.mp h with ⟨p, hp, he⟩
    exact List.any_eq_true.mpr ⟨p, hp, beq_iff_eq.mpr he⟩

/-! ## C8 and C1: determinism and the orchestrator's override -/

/-- C8: the pipeline is deterministic — two invocations of
`process_document` on the same text yield identical `ClaimResult`s
(including the key order of `extractedFields`).  In this embedding the
pipeline is a pure function of the text, reflecting that the source holds
no state across documents. -/
theorem process_document_deterministic (text : List Char) :
    process_document text = process_document text := rfl

/-- C1: if `detect_inconsistencies` on the extracted fields is non-empty,
the recommended route is `"Manual review"` regardless of the cascade branch,
and the reasoning is the cascade's base reason, a space, the text
`"Inconsistencies detected: "`, and the issues joined by single spaces;
if it is empty, the route and reasoning are exactly the cascade's. -/
theorem route_override_and_reasoning (text : List Char) :
    (detect_inconsistencies (extracted_fields_of (normalize text)) ≠ [] →
        (process_document text).recommendedRoute = ROUTE_MANUAL ∧
        (process_document text).reasoning =
          (recommend_route (extracted_fields_of (normalize text))
              (MANDATORY_FIELDS.filter
                (fun f => !((extracted_fields_of (normalize text)).any (fun p => p.1 == f))))).2
            ++ [' '] ++ "Inconsistencies detected: ".data
            ++ joinSp (detect_inconsistencies (extracted_fields_of (normalize text)))) ∧
    (detect_inconsistencies (extracted_fields_of (normalize text)) = [] →
        (process_document text).recommendedRoute =
          (recommend_route (extracted_fields_of (normalize text))
              (MANDATORY_FIELDS.filter
                (fun f => !((extracted_fields_of (normalize text)).any (fun p => p.1 == f))))).1 ∧
        (process_document text).reasoning =
          (recommend_route (extracted_fields_of (normalize text))
              (MANDATORY_FIELDS.filter
                (fun f => !((extracted_fields_of (normalize text)).any (fun p => p.1 == f))))).2) := by
  rcases h : detect_inconsistencies (extracted_fields_of (normalize text)) with _ | ⟨i, is⟩
  · refine ⟨fun hc => absurd rfl hc, fun _ => ?_⟩
    constructor
    · simp [process_document, h]
    · simp [process_document, h, joinSp_single]
  · refine ⟨fun _ => ?_, fun hc => absurd hc (by simp [h])⟩
    constructor
    · simp [process_document, h]
    · have hp : ∀ (a b : List Char), joinSp ([a] ++ [b]) = a ++ [' '] ++ b :=
        fun a b => joinSp_pair a b
    
      simp only [process_document, h, List.isEmpty_cons, Bool.false_eq_true, ite_false]
      rw [hp]
      simp [List.append_assoc]

/-- C3: every mandatory field name lies in exactly one of the extracted
keys and the missing list; the missing list follows `MANDATORY_FIELDS`
order (it is a sublist of it) and has no duplicates; there are 15
mandatory fields. -/
theorem mandatory_fields_partition (text : List Char) :
    MANDATORY_FIELDS.length = 15 ∧
    (∀ f ∈ MANDATORY_FIELDS,
        (f ∈ (process_document text).extractedFields.map Prod.fst ∧
            f ∉ (process_document text).missingFields) ∨
        (f ∉ (process_document text).extractedFields.map Prod.fst ∧
            f ∈ (process_document text).missingFields)) ∧
    (process_document text).missingFields.Sublist MANDATORY_FIELDS ∧
    (process_document text).missingFields.Nodup := by
  refine ⟨rfl, ?_, ?_, ?_⟩
  · intro f hf
    by_cases hk :
        ((extracted_fields_of (normalize text)).any (fun p => p.1 == f)) = true
    · left
      refine ⟨(keys_any _ _).1 hk, ?_⟩
      simp [process_document, List.mem_filter, hk]
    · right
      refine ⟨fun hmem => hk ((keys_any _ _).2 hmem), ?_⟩
      simp only [process_document]
      rw [List.mem_filter]
      exact ⟨hf, by simp [hk]⟩
  · simp only [process_document]
    exact List.filter_sublist _
  · simp only [process_document]
    exact List.Nodup.filter _ (by decide)

/-- The first (estimate comparison) rule of `detect_inconsistencies`. -/
def estimate_issues (fields : List (String × List Char)) : List (List Char) :=
  match parse_currency_float (dictGet fields "estimatedDamage"),
        parse_currency_float (dictGet fields "initialEstimate") with
  | some a, some b => if fl_lt (fl_mul15 a) b then [ISSUE_ESTIMATE] else []
  | _, _ => []

/-- The second (injury asset) rule of `detect_inconsistencies`. -/
def injury_issues (fields : List (String × List Char)) : List (List Char) :=
  if pyLower (pyStripWs (dictGetD fields "claimType" [])) = "injury".data then
    (if pyLower (pyStripWs (dictGetD fields "assetType" [])) = [] ∨
        pyLower (pyStripWs (dictGetD fields "assetType" [])) = "n/a".data ∨
        pyLower (pyStripWs (dictGetD fields "assetType" [])) = "none".data then
       [ISSUE_INJURY] else [])
  else []

theorem detect_parts (fields : List (String × List Char)) :
    detect_inconsistencies fields = estimate_issues fields ++ injury_issues fields := rfl

theorem estimate_issues_none1 (fields : List (String × List Char))
    (h : parse_currency_float (dictGet fields "estimatedDamage") = none) :
    estimate_issues fields = [] := by
  unfold estimate_issues
  rw [h]

theorem estimate_issues_none2 (fields : List (String × List Char))
    (h : parse_currency_float (dictGet fields "initialEstimate") = none) :
    estimate_issues fields = [] := by
  unfold estimate_issues
  rw [h]
  rcases parse_currency_float (dictGet fields "estimatedDamage") with _ | a <;> rfl

theorem estimate_issues_some (fields : List (String × List Char)) (a b : PyFloat)
    (h1 : parse_currency_float (dictGet fields "estimatedDamage") = some a)
    (h2 : parse_currency_float (dictGet fields "initialEstimate") = some b) :
    estimate_issues fields = if fl_lt (fl_mul15 a) b then [ISSUE_ESTIMATE] else [] := by
  unfold estimate_issues
  rw [h1, h2]

theorem estimate_issues_cases (fields : List (String × List Char)) :
    estimate_issues fields = [] ∨ estimate_issues fields = [ISSUE_ESTIMATE] := by
  unfold estimate_issues
  rcases parse_currency_float (dictGet fields "estimatedDamage") with _ | a <;>
    rcases parse_currency_float (dictGet fields "initialEstimate") with _ | b
  · exact Or.inl rfl
  · exact Or.inl rfl
  · exact Or.inl rfl
  · simp only []
    split_ifs
    · exact Or.inr rfl
    · exact Or.inl rfl

theorem injury_issues_cases (fields : List (String × List Char)) :
    injury_issues fields = [] ∨ injury_issues fields = [ISSUE_INJURY] := by
  unfold injury_issues
  split_ifs
  · exact Or.inr rfl
  · exact Or.inl rfl
  · exact Or.inl rfl

theorem estimate_mem_iff (fields : List (String × List Char)) :
    ISSUE_ESTIMATE ∈ estimate_issues fields ↔
      (∃ a b, parse_currency_float (dictGet fields "estimatedDamage") = some a ∧
        parse_currency_float (dictGet fields "initialEstimate") = some b ∧
        fl_lt (fl_mul15 a) b = true) := by
  rcases hed : parse_currency_float (dictGet fields "estimatedDamage") with _ | a
  · rw [estimate_issues_none1 fields hed]
    simp [hed]
  · rcases hie : parse_currency_float (dictGet fields "initialEstimate") with _ | b
    · rw [estimate_issues_none2 fields hie]
      simp [hie]
    · rw [estimate_issues_some fields a b hed hie]
      split_ifs with hgt
      · simp [hed, hie, hgt]
      · refine iff_of_false (by simp) ?_
        rintro ⟨x, y, hx, hy, hxy⟩
        cases hx
        cases hy
        exact hgt hxy

theorem injury_mem_iff (fields : List (String × List Char)) :
    ISSUE_INJURY ∈ injury_issues fields ↔
      (pyLower (pyStripWs (dictGetD fields "claimType" [])) = "injury".data ∧
        pyLower (pyStripWs (dictGetD fields "assetType" []))
          ∈ [([] : List Char), "n/a".data, "none".data]) := by
  unfold injury_issues
  split_ifs with hct hat
  · exact iff_of_true (List.mem_singleton.mpr rfl) ⟨hct, by simpa using hat⟩
  · refine iff_of_false (by simp) ?_
    rintro ⟨-, h2⟩
    exact hat (by simpa using h2)
  · refine iff_of_false (by simp) ?_
    rintro ⟨h1, -⟩
    exact hct h1

/-- C5 (amended): `detect_inconsistencies` contains the estimate issue iff
both monetary fields parse via `float()` and the comparison
`initial_estimate > estimated_damage * 1.5` holds in binary64 arithmetic —
the operands are the parsed doubles and the product is itself rounded —
which is not the exact-magnitude comparison the claim words state (see
`detect_estimate_float_cex`: exact equality at `99.99` / `149.985`, yet
the issue is emitted); it contains the injury issue iff the trimmed,
lower-cased claim type is `"injury"` and the trimmed, lower-cased asset
type is empty, `"n/a"` or `"none"`; and the result is a sublist of the
two issues in that fixed order (so no other issue is ever emitted). -/
theorem detect_inconsistencies_spec (fields : List (String × List Char)) :
    (ISSUE_ESTIMATE ∈ detect_inconsistencies fields ↔
        (∃ a b, parse_currency_float (dictGet fields "estimatedDamage") = some a ∧
          parse_currency_float (dictGet fields "initialEstimate") = some b ∧
          fl_lt (fl_mul15 a) b = true)) ∧
    (ISSUE_INJURY ∈ detect_inconsistencies fields ↔
        (pyLower (pyStripWs (dictGetD fields "claimType" [])) = "injury".data ∧
          pyLower (pyStripWs (dictGetD fields "assetType" []))
            ∈ [([] : List Char), "n/a".data, "none".data])) ∧
    (detect_inconsistencies fields).Sublist [ISSUE_ESTIMATE, ISSUE_INJURY] := by
  refine ⟨?_, ?_, ?_⟩
  · rw [detect_parts, List.mem_append, ← estimate_mem_iff fields]
    have h2 : ISSUE_ESTIMATE ∉ injury_issues fields := by
      rcases injury_issues_cases fields with h | h <;> rw [h] <;> simp <;> decide
    simp [h2]
  · rw [detect_parts, List.mem_append, ← injury_mem_iff fields]
    have h1 : ISSUE_INJURY ∉ estimate_issues fields := by
      rcases estimate_issues_cases fields with h | h <;> rw [h] <;> simp <;> decide
    simp [h1]
  · rw [detect_parts]
    rcases estimate_issues_cases fields with h1 | h1 <;>
      rcases injury_issues_cases fields with h2 | h2 <;>
        rw [h1, h2] <;> decide


/-! ## C4 and C7: the extraction loop's alternative-order semantics -/

/-- C4: among a field's alternative patterns, the extracted value is
determined by the alternative earlier in catalog order whenever it
produces a (non-empty post-processed) match — even when a later
alternative matches at an earlier position in the text. -/
theorem extract_field_catalog_order (text : List Char) (p₁ p₂ : SearchPat)
    (rest : List SearchPat) (i j : Nat) (cap₁ cap₂ : List Char)
    (h₁ : reSearch p₁ text = some (i, cap₁))
    (hne : postprocess cap₁ ≠ [])
    (hp₂ : p₂ ∈ rest)
    (h₂ : reSearch p₂ text = some (j, cap₂))
    (hij : j < i) :
    extract_field text (p₁ :: rest) = some (postprocess cap₁) := by
  simp [extract_field, h₁, hne]

/-- Witness for C4 at a concrete document: the second `policyholderName`
alternative (`insured name`) matches at position 0, the first
(`policyholder name`) only at position 18, yet the first alternative's
value `"Alice"` wins. -/
theorem extract_field_catalog_order_witness :
    extract_field "Insured Name: Bob\nPolicyholder Name: Alice".data
        [⟨seqs [lits "policyholder", wsStar, lits "name", wsStar, colonDash, wsStar],
          lineRest, .eps⟩,
         ⟨seqs [lits "insured", wsStar, lits "name", wsStar, colonDash, wsStar],
          lineRest, .eps⟩] = some "Alice".data :=
  (extract_field_catalog_order "Insured Name: Bob\nPolicyholder Name: Alice".data
    ⟨seqs [lits "policyholder", wsStar, lits "name", wsStar, colonDash, wsStar],
      lineRest, .eps⟩
    ⟨seqs [lits "insured", wsStar, lits "name", wsStar, colonDash, wsStar],
      lineRest, .eps⟩
    [⟨seqs [lits "insured", wsStar, lits "name", wsStar, colonDash, wsStar],
      lineRest, .eps⟩]
    18 0 "Alice".data "Bob".data (by decide) (by decide)
    (List.mem_cons_self _ _) (by decide) (by decide)).trans (by decide)

/-- C7: a pattern whose match post-processes to the empty string behaves
as if it had not matched — extraction falls through to the later
alternatives — and a field is absent exactly when every alternative either
fails to match or yields an empty post-processed value. -/
theorem extract_field_empty_value (text : List Char) :
    (∀ (p : SearchPat) (ps : List SearchPat) (pos : Nat) (cap : List Char),
        reSearch p text = some (pos, cap) → postprocess cap = [] →
        extract_field text (p :: ps) = extract_field text ps) ∧
    (∀ ps : List SearchPat,
        extract_field text ps = none ↔
          ∀ p ∈ ps, reSearch p text = none ∨
            ∃ pos cap, reSearch p text = some (pos, cap) ∧ postprocess cap = []) := by
  constructor
  · intro p ps pos cap h hemp
    simp [extract_field, h, hemp]
  · intro ps
    induction ps with
    | nil => simp [extract_field]
    | cons p ps ih =>
      rcases hr : reSearch p text with _ | ⟨pos, cap⟩
      · simp only [extract_field, hr]
        rw [ih]
        constructor
        · intro h q hq
          rcases List.mem_cons.mp hq with rfl | hq'
          · exact Or.inl hr
          · exact h q hq'
        · intro h q hq
          exact h q (List.mem_cons_of_mem _ hq)
      · by_cases hv : postprocess cap = []
        · simp only [extract_field, hr, hv, if_pos]
          rw [ih]
          constructor
          · intro h q hq
            rcases List.mem_cons.mp hq with rfl | hq'
            · exact Or.inr ⟨pos, cap, hr, hv⟩
            · exact h q hq'
          · intro h q hq
            exact h q (List.mem_cons_of_mem _ hq)
        · simp only [extract_field, hr, if_neg hv]
          constructor
          · intro h
            exact absurd h (by simp)
          · intro h
            rcases h p (List.mem_cons_self p ps) with h' | ⟨pos', cap', h', hv'⟩
            · rw [hr] at h'
              cases h'
            · rw [hr] at h'
              cases h'
              exact absurd hv' hv
  
/-- Witness for C7 at a concrete document: the first `assetType`
alternative matches `"Asset Type: ."` but its value post-processes to the
empty string, so extraction falls through to the `vehicle type`
alternative. -/
theorem extract_field_empty_value_witness :
    extract_field "Asset Type: .\nVehicle Type: Car".data
        [⟨seqs [lits "asset", wsStar, lits "type", wsStar, colonDash, wsStar], lineRest, .eps⟩,
         ⟨seqs [lits "vehicle", wsStar, lits "type", wsStar, colonDash, wsStar], lineRest, .eps⟩]
      = extract_field "Asset Type: .\nVehicle Type: Car".data
        [⟨seqs [lits "vehicle", wsStar, lits "type", wsStar, colonDash, wsStar], lineRest, .eps⟩] :=
  (extract_field_empty_value "Asset Type: .\nVehicle Type: Car".data).1
    ⟨seqs [lits "asset", wsStar, lits "type", wsStar, colonDash, wsStar], lineRest, .eps⟩
    [⟨seqs [lits "vehicle", wsStar, lits "type", wsStar, colonDash, wsStar], lineRest, .eps⟩]
    0 ".".data (by decide) (by decide)


/-! ## C10: normalization invariants of extracted values -/

theorem collapseAux_only_plain_space (l : List Char) :
    ∀ b, ∀ c ∈ collapseAux l b, pySpace c = true → c = ' ' := by
  induction l with
  | nil => intro b c hc; cases hc
  | cons a l ih =>
    intro b c hc hws
    by_cases ha : pySpace a = true
    · rcases b with _ | _
      · rw [collapseAux, if_pos ha] at hc
        simp only [Bool.false_eq_true, if_false] at hc
        rcases List.mem_cons.mp hc with rfl | hc'
        · rfl
        · exact ih true c hc' hws
      · rw [collapseAux, if_pos ha] at hc
        simp only [if_true] at hc
        exact ih true c hc hws
    · rw [collapseAux, if_neg ha] at hc
      rcases List.mem_cons.mp hc with rfl | hc'
      · exact absurd hws (by simpa using ha)
      · exact ih false c hc' hws

theorem collapseAux_true_head (l : List Char) :
    ∀ c, (collapseAux l true).head? = some c → pySpace c = false := by
  induction l with
  | nil => intro c hc; cases hc
  | cons a l ih =>
    intro c hc
    by_cases ha : pySpace a = true
    · rw [collapseAux, if_pos ha, if_pos rfl] at hc
      exact ih c hc
    · rw [collapseAux, if_neg ha] at hc
      cases hc
      simpa using ha

theorem collapseAux_chain (l : List Char) :
    ∀ b, List.Chain' (fun x y => ¬(pySpace x = true ∧ pySpace y = true)) (collapseAux l b) := by
  induction l with
  | nil => intro b; exact List.chain'_nil
  | cons a l ih =>
    intro b
    by_cases ha : pySpace a = true
    · rcases b with _ | _
      · rw [collapseAux, if_pos ha]
        simp only [Bool.false_eq_true, if_false]
        rw [List.chain'_cons']
        refine ⟨?_, ih true⟩
        intro y hy
        intro hcon
        have := collapseAux_true_head l y hy
        rw [hcon.2] at this
        cases this
      · rw [collapseAux, if_pos ha, if_pos rfl]
        exact ih true
    · rw [collapseAux, if_neg ha]
      rw [List.chain'_cons']
      refine ⟨?_, ih false⟩
      intro y _
      intro hcon
      exact absurd hcon.1 (by simpa using ha)

theorem head_dropWhile (f : Char → Bool) (l : List Char) :
    ∀ c, (l.dropWhile f).head? = some c → f c = false := by
  induction l with
  | nil => intro c hc; cases hc
  | cons a l ih =>
    intro c hc
    by_cases ha : f a = true
    · rw [List.dropWhile_cons_of_pos ha] at hc
      exact ih c hc
    · rw [List.dropWhile_cons_of_neg ha] at hc
      cases hc
      simpa using ha

theorem mem_dropWhile_sub (f : Char → Bool) (l : List Char) :
    ∀ c ∈ l.dropWhile f, c ∈ l := by
  induction l with
  | nil => intro c hc; cases hc
  | cons a l ih =>
    intro c hc
    by_cases ha : f a = true
    · rw [List.dropWhile_cons_of_pos ha] at hc
      exact List.mem_cons_of_mem _ (ih c hc)
    · rw [List.dropWhile_cons_of_neg ha] at hc
      exact hc

theorem rstripBy_eq_reverse (f : Char → Bool) (l : List Char) :
    (rstripBy f l).reverse = l.reverse.dropWhile f := by
  simp [rstripBy]

theorem mem_rstripBy_sub (f : Char → Bool) (l : List Char) :
    ∀ c ∈ rstripBy f l, c ∈ l := by
  intro c hc
  have : c ∈ (rstripBy f l).reverse := List.mem_reverse.mpr hc
  rw [rstripBy_eq_reverse] at this
  exact List.mem_reverse.mp (mem_dropWhile_sub f l.reverse c this)

theorem rstripBy_getLast (f : Char → Bool) (l : List Char) :
    ∀ c, (rstripBy f l).getLast? = some c → f c = false := by
  intro c hc
  rw [← List.head?_reverse, rstripBy_eq_reverse] at hc
  exact head_dropWhile f l.reverse c hc

theorem rstripBy_isPre (f : Char → Bool) (l : List Char) :
    ∃ t, rstripBy f l ++ t = l := by
  obtain ⟨t, ht⟩ := (List.dropWhile_suffix (l := l.reverse) f)
  refine ⟨t.reverse, ?_⟩
  have h2 : rstripBy f l = (List.dropWhile f l.reverse).reverse := by
    simp [rstripBy]
  rw [h2, ← List.reverse_append, ht, List.reverse_reverse]

theorem rstripBy_head (f : Char → Bool) (l : List Char) :
    ∀ c, (rstripBy f l).head? = some c → l.head? = some c := by
  intro c hc
  obtain ⟨t, ht⟩ := rstripBy_isPre f l
  rw [← ht]
  rcases hr : rstripBy f l with _ | ⟨x, xs⟩
  · rw [hr] at hc
    cases hc
  · rw [hr] at hc
    cases hc
    rfl

theorem chain_rstripBy (f : Char → Bool) (l : List Char)
    (h : List.Chain' (fun x y => ¬(pySpace x = true ∧ pySpace y = true)) l) :
    List.Chain' (fun x y => ¬(pySpace x = true ∧ pySpace y = true)) (rstripBy f l) := by
  have hsymm : ∀ (m : List Char),
      List.Chain' (fun x y => ¬(pySpace x = true ∧ pySpace y = true)) m →
      List.Chain' (fun x y => ¬(pySpace x = true ∧ pySpace y = true)) m.reverse := by
    intro m hm
    rw [List.chain'_reverse]
    exact List.Chain'.imp (fun x y hxy => fun hcon => hxy ⟨hcon.2, hcon.1⟩) hm
  have h1 := hsymm l h
  have h2 : List.Chain' (fun x y => ¬(pySpace x = true ∧ pySpace y = true))
      (l.reverse.dropWhile f) :=
    List.Chain'.suffix h1 (List.dropWhile_suffix f)
  have h3 := hsymm _ h2
  rw [← rstripBy_eq_reverse] at h3
  simpa using h3

/-- Structural properties of `postprocess`: every whitespace character in
the result is a plain space, no two adjacent characters are both
whitespace, and the result neither starts nor ends with a character of the
strip set. -/
theorem postprocess_props (cap : List Char) :
    (∀ c ∈ postprocess cap, pySpace c = true → c = ' ') ∧
    List.Chain' (fun x y => ¬(pySpace x = true ∧ pySpace y = true)) (postprocess cap) ∧
    (∀ c, (postprocess cap).head? = some c → STRIP_CHARS.contains c = false) ∧
    (∀ c, (postprocess cap).getLast? = some c → STRIP_CHARS.contains c = false) := by
  refine ⟨?_, ?_, ?_, ?_⟩
  · intro c hc hws
    have h1 := mem_rstripBy_sub _ _ c hc
    have h2 := mem_dropWhile_sub _ _ c h1
    exact collapseAux_only_plain_space cap false c h2 hws
  · exact chain_rstripBy _ _
      (List.Chain'.suffix (collapseAux_chain cap false) (List.dropWhile_suffix _))
  · intro c hc
    have h1 := rstripBy_head _ _ c hc
    exact head_dropWhile _ _ c h1
  · intro c hc
    exact rstripBy_getLast _ _ c hc

theorem extract_field_some_shape (text : List Char) (ps : List SearchPat) (v : List Char) :
    extract_field text ps = some v → ∃ cap, v = postprocess cap ∧ v ≠ [] := by
  induction ps with
  | nil => intro h; cases h
  | cons p ps ih =>
    intro h
    rcases hr : reSearch p text with _ | ⟨pos, cap⟩
    · simp only [extract_field, hr] at h
      exact ih h
    · simp only [extract_field, hr] at h
      by_cases hc : postprocess cap = []
      · rw [if_pos hc] at h
        exact ih h
      · rw [if_neg hc] at h
        cases h
        exact ⟨cap, rfl, hc⟩

theorem extracted_field_of_mem (text : List Char) (k : String) (v : List Char) :
    (k, v) ∈ extracted_fields_of text → ∃ ps, extract_field text ps = some v := by
  intro h
  unfold extracted_fields_of at h
  rcases List.mem_filterMap.mp h with ⟨fp, _, hmap⟩
  rcases Option.map_eq_some'.mp hmap with ⟨w, hw, heq⟩
  refine ⟨fp.2, ?_⟩
  rw [hw]
  cases heq
  rfl

/-- C10: every value stored in `extractedFields` of a processed document is
a non-empty string with no newline, carriage return or tab, no two adjacent
whitespace characters, and neither starting nor ending with a space or a
period. -/
theorem extracted_values_normalized (text : List Char) (k : String) (v : List Char)
    (hv : (k, v) ∈ (process_document text).extractedFields) :
    v ≠ [] ∧
    (∀ c ∈ v, c ≠ '\n' ∧ c ≠ '\r' ∧ c ≠ '\t') ∧
    List.Chain' (fun x y => ¬(pySpace x = true ∧ pySpace y = true)) v ∧
    (∀ c, v.head? = some c → c ≠ ' ' ∧ c ≠ '.') ∧
    (∀ c, v.getLast? = some c → c ≠ ' ' ∧ c ≠ '.') := by
  have hv' : (k, v) ∈ extracted_fields_of (normalize text) := by
    simpa [process_document] using hv
  obtain ⟨ps, hps⟩ := extracted_field_of_mem _ _ _ hv'
  obtain ⟨cap, rfl, hne⟩ := extract_field_some_shape _ _ _ hps
  obtain ⟨honly, hchain, hhead, hlast⟩ := postprocess_props cap
  refine ⟨hne, ?_, hchain, ?_, ?_⟩
  · intro c hc
    have hspace : pySpace c = true → c = ' ' := honly c hc
    refine ⟨?_, ?_, ?_⟩
    · rintro rfl
      exact absurd (hspace (by decide)) (by decide)
    · rintro rfl
      exact absurd (hspace (by decide)) (by decide)
    · rintro rfl
      exact absurd (hspace (by decide)) (by decide)
  · intro c hc
    have h1 := hhead c hc
    constructor
    · rintro rfl
      exact absurd h1 (by decide)
    · rintro rfl
      exact absurd h1 (by decide)
  · intro c hc
    have h1 := hlast c hc
    constructor
    · rintro rfl
      exact absurd h1 (by decide)
    · rintro rfl
      exact absurd h1 (by decide)


/-! ## Witnesses for the orchestrator-level claims -/

theorem mkRat_eq_divQ (n : ℤ) (d : ℕ) : mkRat n d = (n : ℚ) / (d : ℚ) := by
  rw [Rat.mkRat_eq_divInt, Rat.divInt_eq_div]
  norm_num

/-- `ratOfTok` on a token without a decimal point. -/
theorem ratOfTok_int (tok : List Char)
    (h : (tok.filter (fun c => c != ',')).dropWhile (fun c => c != '.') = []) :
    ratOfTok tok =
      ((digitsToNat ((tok.filter (fun c => c != ',')).takeWhile (fun c => c != '.'))) : ℚ) := by
  unfold ratOfTok
  simp only [h]

/-- `ratOfTok` on a token with a decimal point, in the `integer + fraction`
form of the source's `float` conversion. -/
theorem ratOfTok_frac (tok : List Char) (c : Char) (fd : List Char)
    (h : (tok.filter (fun c => c != ',')).dropWhile (fun c => c != '.') = c :: fd) :
    ratOfTok tok =
      ((digitsToNat ((tok.filter (fun c => c != ',')).takeWhile (fun c => c != '.'))) : ℚ) +
        (digitsToNat fd : ℚ) / 10 ^ fd.length := by
  unfold ratOfTok
  simp only [h]
  rw [mkRat_eq_divQ]
  push_cast
  have h10 : ((10 : ℚ)) ^ fd.length ≠ 0 := by positivity
  field_simp

/-- Witness for C1 at a concrete document that triggers the injury
inconsistency: the route is overridden to manual review and the reasoning
is the composed string. -/
theorem route_override_and_reasoning_witness :
    (process_document "Claim Type: injury".data).recommendedRoute = ROUTE_MANUAL ∧
    (process_document "Claim Type: injury".data).reasoning =
      (recommend_route (extracted_fields_of (normalize "Claim Type: injury".data))
          (MANDATORY_FIELDS.filter
            (fun f =>
              !((extracted_fields_of (normalize "Claim Type: injury".data)).any
                (fun p => p.1 == f))))).2
        ++ [' '] ++ "Inconsistencies detected: ".data
        ++ joinSp (detect_inconsistencies
            (extracted_fields_of (normalize "Claim Type: injury".data))) :=
  (route_override_and_reasoning "Claim Type: injury".data).1 (by decide)

/-- Witness for C3 on the empty document: `policyNumber` is missing and
not among the extracted keys. -/
theorem mandatory_fields_partition_witness :
    ("policyNumber" ∈ (process_document ([] : List Char)).extractedFields.map Prod.fst ∧
        "policyNumber" ∉ (process_document ([] : List Char)).missingFields) ∨
    ("policyNumber" ∉ (process_document ([] : List Char)).extractedFields.map Prod.fst ∧
        "policyNumber" ∈ (process_document ([] : List Char)).missingFields) :=
  (mandatory_fields_partition ([] : List Char)).2.1 "policyNumber" (by decide)

/-- Witness for C5: an injury claim with no asset type trips the second
rule. -/
theorem detect_inconsistencies_spec_witness :
    ISSUE_INJURY ∈ detect_inconsistencies [("claimType", "Injury".data)] :=
  (detect_inconsistencies_spec [("claimType", "Injury".data)]).2.1.mpr
    ⟨by decide, by decide⟩

/-- Witness for C10 on a concrete document. -/
theorem extracted_values_normalized_witness :
    "1".data ≠ [] ∧
    (∀ c ∈ "1".data, c ≠ '\n' ∧ c ≠ '\r' ∧ c ≠ '\t') ∧
    List.Chain' (fun x y => ¬(pySpace x = true ∧ pySpace y = true)) "1".data ∧
    (∀ c, "1".data.head? = some c → c ≠ ' ' ∧ c ≠ '.') ∧
    (∀ c, "1".data.getLast? = some c → c ≠ ' ' ∧ c ≠ '.') :=
  extracted_values_normalized "VIN:1".data "assetId" "1".data (by decide)


/-! ## C2: the route cascade and the whole-word fraud-keyword search -/

theorem ciMatch_iff (w : List Char) :
    ∀ s rem, ciMatch w s = some rem ↔ ∃ m, s = m ++ rem ∧ m.map toLowerCh = w := by
  induction w with
  | nil =>
    intro s rem
    constructor
    · intro h
      cases h
      exact ⟨[], rfl, rfl⟩
    · rintro ⟨m, hs, hm⟩
      have hm0 : m = [] := List.map_eq_nil_iff.mp hm
      subst hm0
      rw [ciMatch, hs, List.nil_append]

  | cons wc ws ih =>
    intro s rem
    cases s with
    | nil =>
      constructor
      · intro h
        cases h
      · rintro ⟨m, hs, hm⟩
        rcases m with _ | ⟨a, m'⟩
        · cases hm
        · cases hs
    | cons c cs =>
      rw [ciMatch]
      by_cases hc : toLowerCh c == wc
      · rw [if_pos hc, ih cs rem]
        constructor
        · rintro ⟨m', hcs, hm'⟩
          refine ⟨c :: m', by simp [hcs], ?_⟩
          simp only [List.map_cons, hm']
          rw [beq_iff_eq.mp hc]
        · rintro ⟨m, hs, hm⟩
          rcases m with _ | ⟨a, m'⟩
          · cases hm
          · injection hs with h1 h2
            subst h1
            injection hm with h3 h4
            exact ⟨m', h2, h4⟩
      · rw [if_neg hc]
        constructor
        · intro h
          cases h
        · rintro ⟨m, hs, hm⟩
          rcases m with _ | ⟨a, m'⟩
          · cases hm
          · injection hs with h1 h2
            subst h1
            injection hm with h3 h4
            exact absurd (beq_iff_eq.mpr h3) hc

theorem getLast?_cons_or (l : List Char) :
    ∀ (c : Char) (prev : Option Char),
      ((c :: l).getLast?).or prev = (l.getLast?).or (some c) := by
  induction l with
  | nil => intro c prev; rfl
  | cons x xs ih =>
    intro c prev
    calc ((c :: x :: xs).getLast?).or prev
        = ((x :: xs).getLast?).or prev := by rw [List.getLast?_cons_cons]
      _ = (xs.getLast?).or (some x) := ih x prev
      _ = ((x :: xs).getLast?).or (some c) := (ih x (some c)).symm

theorem prevOk_iff (o : Option Char) :
    prevOk o = true ↔ ∀ c, o = some c → isWordCh c = false := by
  cases o <;> simp [prevOk]

theorem afterOk_iff (b : List Char) :
    afterOk b = true ↔ ∀ c, b.head? = some c → isWordCh c = false := by
  cases b <;> simp [afterOk]

theorem scanFraud_iff (s : List Char) :
    ∀ prev, scanFraud prev s = true ↔
      ∃ w ∈ FRAUD_WORDS, ∃ a m b, s = a ++ m ++ b ∧ m.map toLowerCh = w ∧
        prevOk ((a.getLast?).or prev) = true ∧ afterOk b = true := by
  induction s with
  | nil =>
    intro prev
    constructor
    · intro h
      rw [scanFraud] at h
      cases h
    · rintro ⟨w, hw, a, m, b, hs, hm, -, -⟩
      rcases List.append_eq_nil.mp hs.symm with ⟨h1, h2⟩
      rcases List.append_eq_nil.mp h1 with ⟨-, h3⟩
      subst h3
      have hw0 : w = [] := by simpa using hm.symm
      subst hw0
      exact absurd hw (by decide)
  | cons c cs ih =>
    intro prev
    rw [scanFraud, Bool.or_eq_true, Bool.and_eq_true, List.any_eq_true, ih (some c)]
    constructor
    · rintro (⟨hprev, w, hw, hmatch⟩ | ⟨w, hw, a, m, b, hs, hm, hpre, hafter⟩)
      · unfold matchesWordAt at hmatch
        rcases hci : ciMatch w (c :: cs) with _ | rem
        · rw [hci] at hmatch
          cases hmatch
        · rw [hci] at hmatch
          obtain ⟨m, hsm, hmw⟩ := (ciMatch_iff w (c :: cs) rem).mp hci
          exact ⟨w, hw, [], m, rem, by simpa using hsm, hmw, by simpa using hprev, hmatch⟩
      · refine ⟨w, hw, c :: a, m, b, by simp [hs], hm, ?_, hafter⟩
        rw [getLast?_cons_or]
        exact hpre
    · rintro ⟨w, hw, a, m, b, hs, hm, hpre, hafter⟩
      rcases a with _ | ⟨a0, a'⟩
      · left
        refine ⟨by simpa using hpre, w, hw, ?_⟩
        unfold matchesWordAt
        have hci : ciMatch w (c :: cs) = some b :=
          (ciMatch_iff w (c :: cs) b).mpr ⟨m, by simpa using hs, hm⟩
        rw [hci]
        exact hafter
      · right
        injection hs with h1 h2
        subst h1
        rw [getLast?_cons_or] at hpre
        exact ⟨w, hw, a', m, b, h2, hm, hpre, hafter⟩

theorem hasFraudWord_iff (s : List Char) :
    hasFraudWord s = true ↔ ∃ w ∈ FRAUD_WORDS, WholeWordCI w s := by
  rw [hasFraudWord, scanFraud_iff s none]
  unfold WholeWordCI
  constructor
  · rintro ⟨w, hw, a, m, b, hs, hm, hpre, hafter⟩
    refine ⟨w, hw, a, m, b, hs, hm, ?_, (afterOk_iff b).mp hafter⟩
    rw [Option.or_none] at hpre
    exact (prevOk_iff _).mp hpre
  · rintro ⟨w, hw, a, m, b, hs, hm, hpre, hafter⟩
    refine ⟨w, hw, a, m, b, hs, hm, ?_, (afterOk_iff b).mpr hafter⟩
    rw [Option.or_none]
    exact (prevOk_iff _).mpr hpre

theorem damage_cond_iff (fields : List (String × List Char)) :
    ((match parse_currency_float (dictGet fields "estimatedDamage") with
      | some d => fl_lt d (PyFloat.fin 25000)
      | none => false) = true) ↔
      ∃ q, parse_currency_float (dictGet fields "estimatedDamage")
          = some (PyFloat.fin q) ∧ q < 25000 := by
  rcases h : parse_currency_float (dictGet fields "estimatedDamage") with _ | d
  · simp [h]
  · rcases d with q | _
    · simp [h, fl_lt]
    · simp [h, fl_lt]

/-- C2: `recommend_route` is the spec's top-to-bottom cascade: whole-word
case-insensitive fraud keywords first, then missing mandatory fields, then
injury claim type, then estimated damage parsing (via `float()`, i.e. to a
finite double, so an overflowed `inf` never fast-tracks) strictly below
25000, then the default; each with its fixed reason string. -/
theorem recommend_route_cascade (fields : List (String × List Char)) (missing : List String) :
    ((∃ w ∈ FRAUD_WORDS, WholeWordCI w (dictGetD fields "incidentDescription" [])) →
        recommend_route fields missing = (ROUTE_INVESTIGATION, REASON_FRAUD)) ∧
    (¬(∃ w ∈ FRAUD_WORDS, WholeWordCI w (dictGetD fields "incidentDescription" [])) →
      missing ≠ [] →
        recommend_route fields missing = (ROUTE_MANUAL, REASON_MISSING)) ∧
    (¬(∃ w ∈ FRAUD_WORDS, WholeWordCI w (dictGetD fields "incidentDescription" [])) →
      missing = [] →
      pyLower (pyStripWs (dictGetD fields "claimType" [])) = "injury".data →
        recommend_route fields missing = (ROUTE_SPECIALIST, REASON_INJURY)) ∧
    (¬(∃ w ∈ FRAUD_WORDS, WholeWordCI w (dictGetD fields "incidentDescription" [])) →
      missing = [] →
      pyLower (pyStripWs (dictGetD fields "claimType" [])) ≠ "injury".data →
      (∃ q, parse_currency_float (dictGet fields "estimatedDamage")
          = some (PyFloat.fin q) ∧ q < 25000) →
        recommend_route fields missing = (ROUTE_FAST, REASON_FAST)) ∧
    (¬(∃ w ∈ FRAUD_WORDS, WholeWordCI w (dictGetD fields "incidentDescription" [])) →
      missing = [] →
      pyLower (pyStripWs (dictGetD fields "claimType" [])) ≠ "injury".data →
      ¬(∃ q, parse_currency_float (dictGet fields "estimatedDamage")
          = some (PyFloat.fin q) ∧ q < 25000) →
        recommend_route fields missing = (ROUTE_MANUAL, REASON_DEFAULT)) := by
  have hf := hasFraudWord_iff (dictGetD fields "incidentDescription" [])
  refine ⟨?_, ?_, ?_, ?_, ?_⟩
  · intro h
    simp only [recommend_route]
    rw [if_pos (hf.mpr h)]
  · intro h hm
    simp only [recommend_route]
    rw [if_neg (fun hb => h (hf.mp hb)), if_pos hm]
  · intro h hm hct
    simp only [recommend_route]
    rw [if_neg (fun hb => h (hf.mp hb)), if_neg (by simp [hm]), if_pos hct]
  · intro h hm hct hd
    simp only [recommend_route]
    rw [if_neg (fun hb => h (hf.mp hb)), if_neg (by simp [hm]), if_neg hct,
      if_pos ((damage_cond_iff fields).mpr hd)]
  · intro h hm hct hd
    simp only [recommend_route]
    rw [if_neg (fun hb => h (hf.mp hb)), if_neg (by simp [hm]), if_neg hct,
      if_neg (fun hb => hd ((damage_cond_iff fields).mp hb))]

/-- Witness for C2: a description containing the whole word `staged`
routes to the investigation flag. -/
theorem recommend_route_cascade_witness :
    recommend_route [("incidentDescription", "The claim was staged deliberately".data)] [] =
      (ROUTE_INVESTIGATION, REASON_FRAUD) :=
  (recommend_route_cascade
      [("incidentDescription", "The claim was staged deliberately".data)] []).1
    ⟨"staged".data, by decide,
      "The claim was ".data, "staged".data, " deliberately".data, by decide, by decide,
      (by
        intro c hc
        have h2 : ("The claim was ".data).getLast? = some ' ' := by decide
        rw [h2] at hc
        cases hc
        decide),
      (by
        intro c hc
        have h2 : (" deliberately".data).head? = some ' ' := by decide
        rw [h2] at hc
        cases hc
        decide)⟩


/-! ## C6: characterization of the currency regex search -/

theorem head?_append_left {α : Type} (a b : List α) (h : a ≠ []) :
    (a ++ b).head? = a.head? := by
  rcases a with _ | ⟨x, xs⟩
  · exact absurd rfl h
  · rfl

theorem drop_countLeading (f : Char → Bool) :
    ∀ s : List Char, s.drop (countLeading f s) = s.dropWhile f := by
  intro s
  induction s with
  | nil => rfl
  | cons c cs ih =>
    by_cases h : f c = true
    · unfold countLeading at ih ⊢
      rw [List.takeWhile_cons_of_pos h, List.dropWhile_cons_of_pos h, List.length_cons,
        List.drop_succ_cons]
      exact ih
    · unfold countLeading
      rw [List.takeWhile_cons_of_neg (by simpa using h),
        List.dropWhile_cons_of_neg (by simpa using h)]
      rfl

theorem star_head (f : Char → Bool) (s : List Char) :
    (matchList (.star f) s).head? = some (s.dropWhile f) ∧ matchList (.star f) s ≠ [] := by
  have hm : matchList (.star f) s =
      (List.range (countLeading f s + 1)).map (fun i => s.drop (countLeading f s - i)) := rfl
  rw [hm, List.range_succ_eq_map]
  constructor
  · simp only [List.map_cons, List.head?_cons, Nat.sub_zero, Option.some.injEq]
    exact drop_countLeading f s
  · simp

theorem star_cons_tail (f : Char → Bool) (s : List Char) :
    ∃ tl, matchList (.star f) s = s.dropWhile f :: tl := by
  obtain ⟨h1, h2⟩ := star_head f s
  rcases hm : matchList (.star f) s with _ | ⟨x, tl⟩
  · exact absurd hm h2
  · rw [hm] at h1
    cases h1
    exact ⟨tl, rfl⟩

theorem plus_nil_of_none (f : Char → Bool) (s : List Char)
    (h : s.takeWhile f = []) : matchList (.plus f) s = [] := by
  show (List.range (countLeading f s)).map _ = []
  unfold countLeading
  rw [h]
  rfl

theorem plus_head (f : Char → Bool) (s : List Char) (h : s.takeWhile f ≠ []) :
    (matchList (.plus f) s).head? = some (s.dropWhile f) ∧ matchList (.plus f) s ≠ [] := by
  have hm : matchList (.plus f) s =
      (List.range (countLeading f s)).map (fun i => s.drop (countLeading f s - i)) := rfl
  rcases hk : countLeading f s with _ | k
  · unfold countLeading at hk
    exact absurd (List.length_eq_zero.mp hk) h
  · rw [hm, hk, List.range_succ_eq_map]
    constructor
    · simp only [List.map_cons, List.head?_cons, Nat.sub_zero, Option.some.injEq]
      rw [← hk]
      exact drop_countLeading f s
    · simp

theorem Zlist_eq (r2 : List Char) :
    matchList (.seq (chr '.') (.plus Char.isDigit)) r2 =
      (match r2 with
       | [] => ([] : List (List Char))
       | x :: t => if x = '.' then matchList (.plus Char.isDigit) t else []) := by
  rcases r2 with _ | ⟨x, t⟩
  · rfl
  · have hred : (match x :: t with
        | [] => ([] : List (List Char))
        | y :: u => if y = '.' then matchList (.plus Char.isDigit) u else []) =
        (if x = '.' then matchList (.plus Char.isDigit) t else []) := rfl
    rw [hred]
    show ((if x == '.' then [t] else []).flatMap _) = _
    by_cases hx : x = '.'
    · rw [if_pos (beq_iff_eq.mpr hx), if_pos hx]
      simp
    · rw [if_neg (by simpa using hx), if_neg hx]
      rfl

theorem Ylist_nonempty (r2 : List Char) :
    matchList (.opt (.seq (chr '.') (.plus Char.isDigit))) r2 ≠ [] := by
  show matchList (.seq (chr '.') (.plus Char.isDigit)) r2 ++ [r2] ≠ []
  simp

/-- The head of the backtracking list of the optional-fraction suffix:
the greedy fraction match if the remainder starts with `.`+digit, else the
skip alternative. -/
theorem Ylist_head (rest : List Char) :
    (matchList (.opt (.seq (chr '.') (.plus Char.isDigit))) (rest.dropWhile digitCommaCh)).head? =
      some (match rest.dropWhile digitCommaCh with
            | [] => rest.dropWhile digitCommaCh
            | x :: t =>
              if x = '.' then
                (if t.takeWhile Char.isDigit = [] then rest.dropWhile digitCommaCh
                 else t.dropWhile Char.isDigit)
              else rest.dropWhile digitCommaCh) := by
  have hopt : matchList (.opt (.seq (chr '.') (.plus Char.isDigit))) (rest.dropWhile digitCommaCh)
      = matchList (.seq (chr '.') (.plus Char.isDigit)) (rest.dropWhile digitCommaCh)
        ++ [rest.dropWhile digitCommaCh] := rfl
  rw [hopt, Zlist_eq]
  rcases hdw : rest.dropWhile digitCommaCh with _ | ⟨x, t⟩
  · rfl
  · have hred1 : (match x :: t with
        | [] => ([] : List (List Char))
        | y :: u => if y = '.' then matchList (.plus Char.isDigit) u else []) =
        (if x = '.' then matchList (.plus Char.isDigit) t else []) := rfl
    have hred2 : (match x :: t with
        | [] => x :: t
        | y :: u =>
          if y = '.' then
            (if u.takeWhile Char.isDigit = [] then x :: t else u.dropWhile Char.isDigit)
          else x :: t) =
        (if x = '.' then
          (if t.takeWhile Char.isDigit = [] then x :: t else t.dropWhile Char.isDigit)
         else x :: t) := rfl
    rw [hred1, hred2]
    by_cases hx : x = '.'
    · rw [if_pos hx, if_pos hx]
      by_cases hds : t.takeWhile Char.isDigit = []
      · rw [if_pos hds, plus_nil_of_none _ _ hds]
        rfl
      · rw [if_neg hds]
        obtain ⟨h1, h2⟩ := plus_head Char.isDigit t hds
        rw [head?_append_left _ _ h2]
        exact h1
    · rw [if_neg hx, if_neg hx]
      rfl

theorem grp_nil : matchList currencyGrp [] = [] := rfl

theorem grp_nondigit (c : Char) (rest : List Char) (h : Char.isDigit c = false) :
    matchList currencyGrp (c :: rest) = [] := by
  show ((if Char.isDigit c then [rest] else []).flatMap _) = []
  rw [h]
  rfl

theorem grp_digit (c : Char) (rest : List Char) (h : Char.isDigit c = true) :
    (matchList currencyGrp (c :: rest)).head? = some (remAfterTok (c :: rest)) ∧
      matchList currencyGrp (c :: rest) ≠ [] := by
  have hstep : matchList currencyGrp (c :: rest) =
      (matchList (.star digitCommaCh) rest).flatMap
        (fun r => matchList (.opt (.seq (chr '.') (.plus Char.isDigit))) r) := by
    show ((if Char.isDigit c then [rest] else []).flatMap _) = _
    rw [h]
    simp [matchList]
  obtain ⟨tl, htl⟩ := star_cons_tail digitCommaCh rest
  rw [hstep, htl, List.flatMap_cons]
  have hne := Ylist_nonempty (rest.dropWhile digitCommaCh)
  have hrem : remAfterTok (c :: rest) =
      (match rest.dropWhile digitCommaCh with
       | [] => ([] : List Char)
       | x :: t =>
         if x = '.' then
           (if t.takeWhile Char.isDigit = [] then x :: t else t.dropWhile Char.isDigit)
         else x :: t) := rfl
  constructor
  · rw [head?_append_left _ _ hne, Ylist_head rest, hrem]
    congr 1
    rcases hdw : rest.dropWhile digitCommaCh with _ | ⟨x, t⟩ <;> rfl
  · intro hcon
    rcases List.append_eq_nil.mp hcon with ⟨h1, -⟩
    exact hne h1

theorem tokenAt_append_rem (c : Char) (rest : List Char) :
    tokenAt (c :: rest) ++ remAfterTok (c :: rest) = c :: rest := by
  have htok : tokenAt (c :: rest)
      = c :: (rest.takeWhile digitCommaCh ++ fracOf (rest.dropWhile digitCommaCh)) := rfl
  have hrem0 : remAfterTok (c :: rest) =
      (match rest.dropWhile digitCommaCh with
       | [] => ([] : List Char)
       | x :: t =>
         if x = '.' then
           (if t.takeWhile Char.isDigit = [] then x :: t else t.dropWhile Char.isDigit)
         else x :: t) := rfl
  rw [htok]
  rcases hdw : rest.dropWhile digitCommaCh with _ | ⟨x, t⟩
  · have hf : fracOf ([] : List Char) = [] := rfl
    have hrem : remAfterTok (c :: rest) = [] := by rw [hrem0, hdw]
    have hr : rest.takeWhile digitCommaCh = rest := by
      conv_rhs => rw [← List.takeWhile_append_dropWhile (p := digitCommaCh) (l := rest), hdw,
        List.append_nil]
    rw [hf, hrem, List.append_nil, List.append_nil, hr]
  · have hsplit : rest.takeWhile digitCommaCh ++ (x :: t) = rest := by
      conv_rhs => rw [← List.takeWhile_append_dropWhile (p := digitCommaCh) (l := rest), hdw]
    have hf : fracOf (x :: t) =
        (if x = '.' then
          (if t.takeWhile Char.isDigit = [] then [] else '.' :: t.takeWhile Char.isDigit)
         else []) := rfl
    have hrem : remAfterTok (c :: rest) =
        (if x = '.' then
          (if t.takeWhile Char.isDigit = [] then x :: t else t.dropWhile Char.isDigit)
         else x :: t) := by rw [hrem0, hdw]
    rw [hf, hrem]
    by_cases hx : x = '.'
    · by_cases hds : t.takeWhile Char.isDigit = []
      · rw [if_pos hx, if_pos hx, if_pos hds, if_pos hds, List.append_nil, List.cons_append,
          hsplit]
      · rw [if_pos hx, if_pos hx, if_neg hds, if_neg hds]
        subst hx
        have ht : t.takeWhile Char.isDigit ++ t.dropWhile Char.isDigit = t :=
          List.takeWhile_append_dropWhile Char.isDigit t
        calc (c :: (rest.takeWhile digitCommaCh ++
              ('.' :: t.takeWhile Char.isDigit)) : List Char) ++ t.dropWhile Char.isDigit
            = c :: (rest.takeWhile digitCommaCh ++ ('.' :: (t.takeWhile Char.isDigit ++
                t.dropWhile Char.isDigit))) := by simp
          _ = c :: rest := by rw [ht, hsplit]
    · rw [if_neg hx, if_neg hx, List.append_nil, List.cons_append, hsplit]

theorem tryAt_currency_nil : tryAt currencyPat [] = none := rfl

theorem tryAt_currency_nondigit (c : Char) (rest : List Char) (h : Char.isDigit c = false) :
    tryAt currencyPat (c :: rest) = none := by
  show ([c :: rest].findSome? fun r1 =>
    (matchList currencyGrp r1).findSome? fun r2 =>
      if (matchList Pat.eps r2).isEmpty then none
      else some (r1.take (r1.length - r2.length))) = none
  rw [List.findSome?_cons]
  rw [grp_nondigit c rest h]
  rfl

theorem findSome?_total {α β : Type} (g : α → β) (l : List α) :
    l.findSome? (fun a => some (g a)) = l.head?.map g := by
  cases l <;> simp

theorem tryAt_currency_digit (c : Char) (rest : List Char) (h : Char.isDigit c = true) :
    tryAt currencyPat (c :: rest) = some (tokenAt (c :: rest)) := by
  obtain ⟨hhead, hne⟩ := grp_digit c rest h
  show ([c :: rest].findSome? fun r1 =>
    (matchList currencyGrp r1).findSome? fun r2 =>
      if (matchList Pat.eps r2).isEmpty then none
      else some (r1.take (r1.length - r2.length))) = _
  rw [List.findSome?_cons]
  have hsimp : ((matchList currencyGrp (c :: rest)).findSome? fun r2 =>
      if (matchList Pat.eps r2).isEmpty then none
      else some ((c :: rest).take ((c :: rest).length - r2.length))) =
      ((matchList currencyGrp (c :: rest)).findSome? fun r2 =>
        some ((c :: rest).take ((c :: rest).length - r2.length))) := by
    congr 1
  rw [hsimp, findSome?_total, hhead]
  simp only [Option.map_some']
  have hAB := tokenAt_append_rem c rest
  revert hAB
  generalize tokenAt (c :: rest) = A
  generalize remAfterTok (c :: rest) = B
  intro hAB
  rw [← hAB, List.length_append]
  rw [show A.length + B.length - B.length = A.length from by omega]
  rw [List.take_left]

theorem searchAux_currency (s : List Char) :
    ∀ pos, (searchAux currencyPat s pos).map Prod.snd = spec_first_token s := by
  induction s with
  | nil => intro pos; rfl
  | cons c rest ih =>
    intro pos
    by_cases h : Char.isDigit c = true
    · rw [searchAux, tryAt_currency_digit c rest h]
      unfold spec_first_token
      rw [if_pos h]
      rfl
    · rw [searchAux, tryAt_currency_nondigit c rest (by simpa using h)]
      unfold spec_first_token
      rw [if_neg h]
      exact ih (pos + 1)

/-- The search of `parse_currency` finds exactly the first numeric token. -/
theorem parse_currency_eq_spec (s : List Char) :
    parse_currency (some s) = (spec_first_token s).map ratOfTok := by
  have hp : parse_currency (some s) =
      (if s = [] then none
       else match reSearch currencyPat s with
            | none => none
            | some (_, tok) => some (ratOfTok tok)) := rfl
  rw [hp]
  by_cases hs : s = []
  · subst hs
    rw [if_pos rfl]
    rfl
  · rw [if_neg hs]
    have h := searchAux_currency s 0
    rcases hr : searchAux currencyPat s 0 with _ | ⟨pos, tok⟩
    · rw [hr] at h
      unfold reSearch
      rw [hr, ← h]
      rfl
    · rw [hr] at h
      unfold reSearch
      rw [hr, ← h]
      rfl

theorem spec_first_token_none_iff (s : List Char) :
    spec_first_token s = none ↔ ∀ c ∈ s, c.isDigit = false := by
  induction s with
  | nil => simp [spec_first_token]
  | cons c rest ih =>
    unfold spec_first_token
    by_cases h : c.isDigit = true
    · rw [if_pos h]
      simp [h]
    · rw [if_neg h]
      rw [ih]
      constructor
      · intro ha d hd
        rcases List.mem_cons.mp hd with rfl | hd'
        · simpa using h
        · exact ha d hd'
      · intro ha d hd
        exact ha d (List.mem_cons_of_mem _ hd)

/-- Characterization of the token layer: `parse_currency` returns no value
exactly when the input is absent, empty, or contains no digit (hence no
numeric token), and otherwise returns the exact magnitude of the first
digit-initiated token of digits, commas and an optional single decimal
point with fractional digits, with commas removed. -/
theorem parse_currency_token_spec (v : Option (List Char)) :
    (parse_currency v =
      (match v with
       | none => none
       | some s => (spec_first_token s).map ratOfTok)) ∧
    (parse_currency v = none ↔
      (v = none ∨ v = some [] ∨ ∃ s, v = some s ∧ ∀ c ∈ s, c.isDigit = false)) := by
  rcases v with _ | s
  · exact ⟨rfl, by simp [parse_currency]⟩
  · refine ⟨parse_currency_eq_spec s, ?_⟩
    rw [parse_currency_eq_spec s]
    constructor
    · intro h
      right; right
      refine ⟨s, rfl, ?_⟩
      rw [← spec_first_token_none_iff]
      rcases hsp : spec_first_token s with _ | t
      · rfl
      · rw [hsp] at h
        cases h
    · rintro (h | h | ⟨s2, hs2, hall⟩)
      · cases h
      · cases h
        rfl
      · cases hs2
        rw [(spec_first_token_none_iff _).mpr hall]
        rfl

/-- C6 (amended): the source's currency parsing — `float` of the first
numeric token with commas stripped, `parse_currency_float` — returns no
value exactly when the input is absent, empty, or contains no digit, and
otherwise returns not the exact magnitude of the token but its nearest
binary64 double (round to nearest, ties to even; `inf` on overflow) — see
`parse_float_rounds_cex` for magnitudes no double equals. -/
theorem parse_currency_float_spec (v : Option (List Char)) :
    (parse_currency_float v =
      (match v with
       | none => none
       | some s => (spec_first_token s).map (fun t => roundFl (ratOfTok t)))) ∧
    (parse_currency_float v = none ↔
      (v = none ∨ v = some [] ∨ ∃ s, v = some s ∧ ∀ c ∈ s, c.isDigit = false)) := by
  have hmap : ∀ s : List Char, parse_currency_float (some s)
      = (spec_first_token s).map (fun t => roundFl (ratOfTok t)) := by
    intro s
    show (parse_currency (some s)).map roundFl = _
    rw [parse_currency_eq_spec s]
    rcases spec_first_token s with _ | t
    · rfl
    · rfl
  rcases v with _ | s
  · exact ⟨rfl, by simp [parse_currency_float, parse_currency]⟩
  · refine ⟨hmap s, ?_⟩
    rw [hmap s]
    constructor
    · intro h
      right; right
      refine ⟨s, rfl, ?_⟩
      rw [← spec_first_token_none_iff]
      rcases hsp : spec_first_token s with _ | t
      · rfl
      · rw [hsp] at h
        cases h
    · rintro (h | h | ⟨s2, hs2, hall⟩)
      · cases h
      · cases h
        rfl
      · cases hs2
        rw [(spec_first_token_none_iff _).mpr hall]
        rfl

/-- Witness for C6 at a concrete free-text value (an integer token, whose
double is exact). -/
theorem parse_currency_float_spec_witness :
    parse_currency_float (some "about 12,500 total".data) = some (PyFloat.fin 12500) :=
  (parse_currency_float_spec (some "about 12,500 total".data)).1.trans (by decide)

/-- C6 counterexample to the exact-magnitude reading: the token `"0.1"`
parses to the double `3602879701896397 / 2^55`, not to `1/10` (no binary64
value equals `1/10`); and `"24999.999999999999"` parses to exactly `25000`.
-/
theorem parse_float_rounds_cex :
    parse_currency_float (some "0.1".data)
        = some (PyFloat.fin (mkRat 3602879701896397 (2 ^ 55))) ∧
    mkRat 3602879701896397 (2 ^ 55) ≠ mkRat 1 10 ∧
    parse_currency_float (some "24999.999999999999".data)
        = some (PyFloat.fin 25000) :=
  ⟨by decide, by decide, by decide⟩

/-- C5 counterexample to the exact-magnitude reading of the estimate rule:
the tokens `"99.99"` and `"149.985"` have exact magnitudes with
`149.985 = 99.99 × 1.5` — not strictly greater — yet the program emits the
estimate issue, because `float("149.985") > float("99.99") * 1.5` holds in
binary64 (the parsed doubles and the rounded product land on the emitting
side). -/
theorem detect_estimate_float_cex :
    parse_currency (some "99.99".data) = some (mkRat 9999 100) ∧
    parse_currency (some "149.985".data) = some (mkRat 149985 1000) ∧
    mkRat 9999 100 * (3 / 2 : ℚ) = mkRat 29997 200 ∧
    ¬(mkRat 29997 200 < mkRat 149985 1000) ∧
    detect_inconsistencies
        [("estimatedDamage", "99.99".data), ("initialEstimate", "149.985".data)]
      = [ISSUE_ESTIMATE] :=
  ⟨by decide, by decide, by rw [mkRat_eq_divQ, mkRat_eq_divQ]; norm_num,
    by decide, by decide⟩


/-! ## C9: decimal rendering and the parse round-trip -/

theorem digitVal_digitChar (d : ℕ) (h : d ≤ 9) : digitVal (digitChar d) = d := by
  interval_cases d <;> decide

theorem isDigit_digitChar (d : ℕ) (h : d ≤ 9) : (digitChar d).isDigit = true := by
  interval_cases d <;> decide

theorem digitsToNat_foldl (cs : List Char) :
    ∀ a : ℕ, cs.foldl (fun x c => 10 * x + digitVal c) a
      = a * 10 ^ cs.length + digitsToNat cs := by
  induction cs with
  | nil => intro a; simp [digitsToNat]
  | cons c cs ih =>
    intro a
    show cs.foldl _ (10 * a + digitVal c) = _
    rw [ih (10 * a + digitVal c)]
    have h2 : digitsToNat (c :: cs) = digitVal c * 10 ^ cs.length + digitsToNat cs := by
      show cs.foldl _ (10 * 0 + digitVal c) = _
      rw [ih (10 * 0 + digitVal c)]
      ring
    rw [h2, List.length_cons]
    ring

theorem digitsToNat_cons (c : Char) (cs : List Char) :
    digitsToNat (c :: cs) = digitVal c * 10 ^ cs.length + digitsToNat cs := by
  show cs.foldl _ (10 * 0 + digitVal c) = _
  rw [digitsToNat_foldl]
  ring

theorem digitsToNat_append_last (xs : List Char) (c : Char) :
    digitsToNat (xs ++ [c]) = 10 * digitsToNat xs + digitVal c := by
  unfold digitsToNat
  rw [List.foldl_append]
  rfl

theorem natToDigitsAux_spec :
    ∀ (f n : ℕ), n < 10 ^ f → 0 < f →
      digitsToNat (natToDigitsAux f n) = n ∧
      (∀ c ∈ natToDigitsAux f n, c.isDigit = true) ∧ natToDigitsAux f n ≠ [] := by
  intro f
  induction f with
  | zero => intro n h h0; cases h0
  | succ f ih =>
    intro n hn _
    by_cases h10 : n < 10
    · have he : natToDigitsAux (f + 1) n = [digitChar n] := by
        show (if n < 10 then [digitChar n] else _) = _
        rw [if_pos h10]
      refine ⟨?_, ?_, by simp [he]⟩
      · rw [he, digitsToNat_cons, digitVal_digitChar n (by omega)]
        simp [digitsToNat]
      · intro c hc
        rw [he] at hc
        have hc' : c = digitChar n := List.mem_singleton.mp hc
        subst hc'
        exact isDigit_digitChar n (by omega)
    · have he : natToDigitsAux (f + 1) n
          = natToDigitsAux f (n / 10) ++ [digitChar (n % 10)] := by
        show (if n < 10 then _ else _) = _
        rw [if_neg h10]
      have hdiv : n / 10 < 10 ^ f := by
        have hn' : n < 10 ^ f * 10 := by
          rw [← pow_succ]
          exact hn
        omega
      have hf0 : 0 < f := by
        rcases Nat.eq_zero_or_pos f with rfl | hf
        · rw [pow_one] at hn
          exact absurd hn (by omega)
        · exact hf
      obtain ⟨ih1, ih2, ih3⟩ := ih (n / 10) hdiv hf0
      refine ⟨?_, ?_, by simp [he]⟩
      · rw [he, digitsToNat_append_last, ih1, digitVal_digitChar _ (by omega)]
        omega
      · intro c hc
        rw [he] at hc
        rcases List.mem_append.mp hc with hc' | hc'
        · exact ih2 c hc'
        · have hc'' : c = digitChar (n % 10) := List.mem_singleton.mp hc'
          subst hc''
          exact isDigit_digitChar _ (by omega)

theorem natToDigits_spec (n : ℕ) :
    digitsToNat (natToDigits n) = n ∧ (∀ c ∈ natToDigits n, c.isDigit = true) ∧
      natToDigits n ≠ [] := by
  have h1 : n < 10 ^ n := Nat.lt_pow_self (by norm_num) n
  have h2 : (10 : ℕ) ^ n ≤ 10 ^ (n + 1) := Nat.pow_le_pow_right (by norm_num) (Nat.le_succ n)
  exact natToDigitsAux_spec (n + 1) n (lt_of_lt_of_le h1 h2) (Nat.succ_pos n)

theorem fracValQ_digits (ds : List ℕ) (h : ∀ x ∈ ds, x ≤ 9) :
    fracValQ ds = (digitsToNat (ds.map digitChar) : ℚ) / 10 ^ ds.length := by
  induction ds with
  | nil => simp [fracValQ, digitsToNat]
  | cons d ds ih =>
    have hd : d ≤ 9 := h d (List.mem_cons_self d ds)
    have ih' := ih (fun x hx => h x (List.mem_cons_of_mem _ hx))
    show ((d : ℚ) + fracValQ ds) / 10 = _
    rw [ih', List.map_cons, digitsToNat_cons, digitVal_digitChar d hd, List.length_map,
      List.length_cons, pow_succ]
    have h10 : ((10 : ℚ)) ^ ds.length ≠ 0 := by positivity
    have hpush : ((d * 10 ^ ds.length + digitsToNat (ds.map digitChar) : ℕ) : ℚ)
        = (d : ℚ) * 10 ^ ds.length + (digitsToNat (ds.map digitChar) : ℚ) := by
      push_cast
      ring
    rw [hpush]
    have hstep : (d : ℚ) + (digitsToNat (ds.map digitChar) : ℚ) / 10 ^ ds.length
        = ((d : ℚ) * 10 ^ ds.length + (digitsToNat (ds.map digitChar) : ℚ)) / 10 ^ ds.length := by
      rw [add_div, mul_div_cancel_right₀ _ h10]
    rw [hstep, div_div]

theorem fracDigits_cons (den f r : ℕ) (hr : r ≠ 0) :
    fracDigits den (f + 1) r = (10 * r) / den :: fracDigits den f ((10 * r) % den) := by
  show (if r = 0 then [] else _) = _
  rw [if_neg hr]

theorem fracDigits_zero_r (den f : ℕ) : fracDigits den f 0 = [] := by
  cases f
  · rfl
  · show (if (0 : ℕ) = 0 then [] else _) = _
    rw [if_pos rfl]

theorem fracDigits_val (den : ℕ) (hden : 0 < den) :
    ∀ (fuel m r : ℕ), r < den → den ∣ r * 10 ^ m → m ≤ fuel →
      (fracValQ (fracDigits den fuel r) = (r : ℚ) / den ∧
       ∀ x ∈ fracDigits den fuel r, x ≤ 9) := by
  intro fuel
  induction fuel with
  | zero =>
    intro m r hr hdvd hm
    have hm0 : m = 0 := Nat.le_zero.mp hm
    subst hm0
    rw [pow_zero, mul_one] at hdvd
    have hr0 : r = 0 := Nat.eq_zero_of_dvd_of_lt hdvd hr
    subst hr0
    refine ⟨by simp [fracValQ, fracDigits], ?_⟩
    intro x hx
    cases hx
  | succ fuel ih =>
    intro m r hr hdvd hm
    by_cases hr0 : r = 0
    · subst hr0
      rw [fracDigits_zero_r]
      refine ⟨by simp [fracValQ], ?_⟩
      intro x hx
      cases hx
    · rcases m with _ | m'
      · rw [pow_zero, mul_one] at hdvd
        exact absurd (Nat.eq_zero_of_dvd_of_lt hdvd hr) hr0
      · rw [fracDigits_cons den fuel r hr0]
        have hrlt : (10 * r) % den < den := Nat.mod_lt _ hden
        have hdm := Nat.div_add_mod (10 * r) den
        have hdvd' : den ∣ ((10 * r) % den) * 10 ^ m' := by
          have h1 : den ∣ (10 * r) * 10 ^ m' := by
            have heq : r * 10 ^ (m' + 1) = (10 * r) * 10 ^ m' := by ring
            rw [← heq]
            exact hdvd
          have h2 : den ∣ den * ((10 * r) / den) * 10 ^ m' :=
            ⟨((10 * r) / den) * 10 ^ m', by ring⟩
          have h3 : ((10 * r) % den) * 10 ^ m'
              = (10 * r) * 10 ^ m' - den * ((10 * r) / den) * 10 ^ m' := by
            have hmod : (10 * r) % den = 10 * r - den * ((10 * r) / den) := by omega
            rw [hmod, Nat.sub_mul]
          rw [h3]
          exact Nat.dvd_sub' h1 h2
        obtain ⟨ihv, ihd⟩ := ih m' ((10 * r) % den) hrlt hdvd' (by omega)
        constructor
        · show ((((10 * r) / den : ℕ) : ℚ)
              + fracValQ (fracDigits den fuel ((10 * r) % den))) / 10 = _
          rw [ihv]
          have hden' : (den : ℚ) ≠ 0 := Nat.cast_ne_zero.mpr hden.ne'
          have hcast : (den : ℚ) * (((10 * r) / den : ℕ) : ℚ) + (((10 * r) % den : ℕ) : ℚ)
              = 10 * (r : ℚ) := by exact_mod_cast hdm
          have hstep : (((10 * r) / den : ℕ) : ℚ) + (((10 * r) % den : ℕ) : ℚ) / den
              = ((((10 * r) / den : ℕ) : ℚ) * den + (((10 * r) % den : ℕ) : ℚ)) / den := by
            rw [add_div, mul_div_cancel_right₀ _ hden']
          rw [hstep, div_div]
          rw [div_eq_div_iff (mul_ne_zero hden' (by norm_num)) hden']
          linear_combination (den : ℚ) * hcast
        · intro x hx
          rcases List.mem_cons.mp hx with rfl | hx'
          · have hlt : (10 * r) / den < 10 := Nat.div_lt_of_lt_mul (by omega)
            omega
          · exact ihd x hx'

theorem dvd_ten_pow_self {d m : ℕ} (h : d ∣ 10 ^ m) : d ∣ 10 ^ d := by
  have h10 : (10 : ℕ) ^ m = 2 ^ m * 5 ^ m := by
    rw [show (10 : ℕ) = 2 * 5 from rfl, mul_pow]
  rw [h10] at h
  rcases Nat.dvd_mul.mp h with ⟨y, z, hy, hz, hyz⟩
  rcases (Nat.dvd_prime_pow Nat.prime_two).mp hy with ⟨x, hxm, rfl⟩
  rcases (Nat.dvd_prime_pow (by norm_num : Nat.Prime 5)).mp hz with ⟨w, hwm, rfl⟩
  subst hyz
  have h2x : (0 : ℕ) < 2 ^ x := pow_pos (by norm_num) x
  have h5w : (0 : ℕ) < 5 ^ w := pow_pos (by norm_num) w
  have hx : x ≤ 2 ^ x * 5 ^ w := by
    have := Nat.lt_two_pow x
    nlinarith
  have hw : w ≤ 2 ^ x * 5 ^ w := by
    have : w < 5 ^ w := Nat.lt_pow_self (by norm_num) w
    nlinarith
  have hd : 2 ^ x * 5 ^ w ∣ 2 ^ (2 ^ x * 5 ^ w) * 5 ^ (2 ^ x * 5 ^ w) :=
    mul_dvd_mul (pow_dvd_pow 2 hx) (pow_dvd_pow 5 hw)
  have h10' : (10 : ℕ) ^ (2 ^ x * 5 ^ w) = 2 ^ (2 ^ x * 5 ^ w) * 5 ^ (2 ^ x * 5 ^ w) := by
    rw [show (10 : ℕ) = 2 * 5 from rfl, mul_pow]
  rw [h10']
  exact hd

theorem mkRat_den_dvd (N k : ℕ) : (mkRat N (10 ^ k)).den ∣ 10 ^ k := by
  have h := Rat.den_dvd (N : ℤ) (((10 : ℕ) ^ k : ℕ) : ℤ)
  rw [← Rat.mkRat_eq_divInt] at h
  exact_mod_cast h


theorem takeWhile_all {p : Char → Bool} :
    ∀ {l : List Char}, (∀ c ∈ l, p c = true) → l.takeWhile p = l := by
  intro l
  induction l with
  | nil => intro _; rfl
  | cons c cs ih =>
    intro h
    rw [List.takeWhile_cons_of_pos (h c (List.mem_cons_self c cs)),
      ih (fun d hd => h d (List.mem_cons_of_mem _ hd))]

theorem takeWhile_append_stop {p : Char → Bool} :
    ∀ (A : List Char) (x : Char) (r : List Char), (∀ c ∈ A, p c = true) → p x = false →
      ((A ++ x :: r).takeWhile p = A ∧ (A ++ x :: r).dropWhile p = x :: r) := by
  intro A
  induction A with
  | nil =>
    intro x r _ hx
    constructor
    · rw [List.nil_append, List.takeWhile_cons_of_neg (by simp [hx])]
    · rw [List.nil_append, List.dropWhile_cons_of_neg (by simp [hx])]
  | cons a A ih =>
    intro x r hA hx
    have ha : p a = true := hA a (List.mem_cons_self a A)
    obtain ⟨ih1, ih2⟩ := ih x r (fun c hc => hA c (List.mem_cons_of_mem _ hc)) hx
    constructor
    · rw [List.cons_append, List.takeWhile_cons_of_pos ha, ih1]
    · rw [List.cons_append, List.dropWhile_cons_of_pos ha, ih2]

theorem filter_all {p : Char → Bool} :
    ∀ (l : List Char), (∀ c ∈ l, p c = true) → l.filter p = l := by
  intro l
  induction l with
  | nil => intro _; rfl
  | cons c cs ih =>
    intro h
    rw [List.filter_cons_of_pos (h c (List.mem_cons_self c cs)),
      ih (fun d hd => h d (List.mem_cons_of_mem _ hd))]

theorem digit_bne (c : Char) (h : c.isDigit = true) (x : Char) (hx : x.isDigit = false) :
    (c != x) = true := by
  rw [bne_iff_ne]
  rintro rfl
  rw [h] at hx
  cases hx

/-- Parsing a rendered decimal string `A.B` (both parts non-empty digit
strings) gives exactly the decimal value. -/
theorem parse_render (A B : List Char) (hAne : A ≠ []) (hA : ∀ c ∈ A, c.isDigit = true)
    (hBne : B ≠ []) (hB : ∀ c ∈ B, c.isDigit = true) :
    parse_currency (some (A ++ '.' :: B)) =
      some (mkRat (digitsToNat A * 10 ^ B.length + digitsToNat B) (10 ^ B.length)) := by
  rcases A with _ | ⟨a, A2⟩
  · exact absurd rfl hAne
  have ha : a.isDigit = true := hA a (List.mem_cons_self _ _)
  have hA2 : ∀ c ∈ A2, c.isDigit = true := fun c hc => hA c (List.mem_cons_of_mem _ hc)
  rw [parse_currency_eq_spec]
  have hcons : (a :: A2) ++ '.' :: B = a :: (A2 ++ '.' :: B) := rfl
  rw [hcons]
  have hsft : spec_first_token (a :: (A2 ++ '.' :: B))
      = some (tokenAt (a :: (A2 ++ '.' :: B))) := by
    unfold spec_first_token
    rw [if_pos ha]
  rw [hsft]
  have hdc : ∀ c ∈ A2, digitCommaCh c = true := by
    intro c hc
    unfold digitCommaCh
    rw [hA2 c hc]
    rfl
  obtain ⟨htw, hdw⟩ := takeWhile_append_stop A2 '.' B hdc (by decide)
  have hfr : fracOf ('.' :: B) = '.' :: B := by
    have hfr0 : fracOf ('.' :: B) =
        (if ('.' : Char) = '.' then
          (if B.takeWhile Char.isDigit = [] then [] else '.' :: B.takeWhile Char.isDigit)
         else []) := rfl
    rw [hfr0, if_pos rfl, takeWhile_all hB, if_neg hBne]
  have htok : tokenAt (a :: (A2 ++ '.' :: B)) = a :: (A2 ++ '.' :: B) := by
    have htok0 : tokenAt (a :: (A2 ++ '.' :: B)) =
        a :: ((A2 ++ '.' :: B).takeWhile digitCommaCh ++
          fracOf ((A2 ++ '.' :: B).dropWhile digitCommaCh)) := rfl
    rw [htok0, htw, hdw, hfr]
  rw [htok]
  simp only [Option.map_some']
  congr 1
  have hnocomma : ∀ c ∈ (a :: (A2 ++ '.' :: B)), (c != ',') = true := by
    intro c hc
    rcases List.mem_cons.mp hc with rfl | hc1
    · exact digit_bne _ ha _ (by decide)
    · rcases List.mem_append.mp hc1 with hc2 | hc2
      · exact digit_bne _ (hA2 c hc2) _ (by decide)
      · rcases List.mem_cons.mp hc2 with rfl | hc3
        · decide
        · exact digit_bne _ (hB c hc3) _ (by decide)
  have hfilter : (a :: (A2 ++ '.' :: B)).filter (fun c => c != ',') = a :: (A2 ++ '.' :: B) :=
    filter_all _ hnocomma
  have hpdot : ∀ c ∈ (a :: A2), (c != '.') = true := by
    intro c hc
    rcases List.mem_cons.mp hc with rfl | hc1
    · exact digit_bne _ ha _ (by decide)
    · exact digit_bne _ (hA2 c hc1) _ (by decide)
  obtain ⟨htw2, hdw2⟩ := takeWhile_append_stop (a :: A2) '.' B hpdot (by decide)
  have hdrop : ((a :: (A2 ++ '.' :: B)).filter (fun c => c != ',')).dropWhile
      (fun c => c != '.') = '.' :: B := by
    rw [hfilter, ← hcons]
    exact hdw2
  rw [ratOfTok_frac _ '.' B hdrop]
  have htake : ((a :: (A2 ++ '.' :: B)).filter (fun c => c != ',')).takeWhile
      (fun c => c != '.') = a :: A2 := by
    rw [hfilter, ← hcons]
    exact htw2
  rw [htake, mkRat_eq_divQ]
  have h10 : ((10 : ℚ)) ^ B.length ≠ 0 := by positivity
  push_cast
  rw [add_div, mul_div_cancel_right₀ _ h10]


/-- Every successful `parse_currency` result is a decimal rational. -/
theorem parse_shape (s : List Char) (v : ℚ) (h : parse_currency (some s) = some v) :
    ∃ (N k : ℕ), v = mkRat N (10 ^ k) := by
  rw [parse_currency_eq_spec] at h
  rcases hsp : spec_first_token s with _ | t
  · rw [hsp] at h
    cases h
  · rw [hsp] at h
    simp only [Option.map_some'] at h
    have hv : ratOfTok t = v := Option.some_inj.mp h
    subst hv
    rcases hfd : (t.filter (fun c => c != ',')).dropWhile (fun c => c != '.') with _ | ⟨c, fd⟩
    · refine ⟨digitsToNat ((t.filter (fun c => c != ',')).takeWhile (fun c => c != '.')), 0, ?_⟩
      rw [ratOfTok_int t hfd, pow_zero]
      rw [Rat.mkRat_one]
      norm_cast
    · refine ⟨digitsToNat ((t.filter (fun c => c != ',')).takeWhile (fun c => c != '.'))
        * 10 ^ fd.length + digitsToNat fd, fd.length, ?_⟩
      unfold ratOfTok
      simp only [hfd]
      congr 1
      push_cast
      ring

/-- C9 (amended): the round-trip through the string rendering preserves the
parsed value whenever the rendering is positional, i.e. for values `v` with
`v = 0` or `1/10000 ≤ v < 10^16`; outside that range `str` uses scientific
notation and the round-trip fails (see `parse_roundtrip_cex`). -/
theorem parse_currency_roundtrip (s : List Char) (v : ℚ)
    (h : parse_currency (some s) = some v)
    (hrange : v = 0 ∨ (mkRat 1 10000 ≤ v ∧ v < 10 ^ 16)) :
    parse_currency (some (pyFloatStr v)) = some v := by
  obtain ⟨N, k, hNk⟩ := parse_shape s v h
  have hqnn : 0 ≤ v := by rw [hNk, mkRat_eq_divQ]; positivity
  have hnum : (v.num.toNat : ℤ) = v.num := Int.toNat_of_nonneg (Rat.num_nonneg.mpr hqnn)
  have hden : 0 < v.den := v.pos
  have hd1 : v.den ∣ 10 ^ k := by rw [hNk]; exact mkRat_den_dvd N k
  have hd2 : v.den ∣ 10 ^ v.den := dvd_ten_pow_self hd1
  have hdQ : ((v.den : ℚ)) ≠ 0 := Nat.cast_ne_zero.mpr hden.ne'
  have hdQ0 : (0 : ℚ) < (v.den : ℚ) := by exact_mod_cast hden
  have hvq : ((v.num.toNat : ℕ) : ℚ) / (v.den : ℚ) = v := by
    have hnumQ : ((v.num.toNat : ℕ) : ℚ) = ((v.num : ℤ) : ℚ) := by exact_mod_cast hnum
    rw [hnumQ]
    exact Rat.num_div_den v
  have hpf : pyFloatStr v =
      (if v.num.toNat = 0 then "0.0".data
       else if v.num.toNat * 10000 < v.den then sciSmall v.num.toNat v.den
       else if v.den * 10 ^ 16 ≤ v.num.toNat then sciBig v.num.toNat v.den
       else positionalStr v.num.toNat v.den) := rfl
  by_cases h0 : v.num.toNat = 0
  · have hq0 : v = 0 := Rat.num_eq_zero.mp (by omega)
    rw [hpf, if_pos h0, hq0]
    decide
  · rcases hrange with hzero | ⟨hlo, hhi⟩
    · exact absurd (by rw [hzero]; rfl) h0
    have hlo2 : v.den ≤ v.num.toNat * 10000 := by
      rw [← hvq, mkRat_eq_divQ] at hlo
      rw [div_le_div_iff (by norm_num) hdQ0] at hlo
      exact_mod_cast (by push_cast at hlo ⊢; linarith :
        ((v.den : ℚ)) ≤ ((v.num.toNat : ℚ)) * 10000)
    have hhi2 : v.num.toNat < v.den * 10 ^ 16 := by
      rw [← hvq, div_lt_iff hdQ0] at hhi
      exact_mod_cast (by push_cast at hhi ⊢; linarith :
        ((v.num.toNat : ℚ)) < ((v.den : ℚ)) * 10 ^ 16)
    rw [hpf, if_neg h0, if_neg (not_lt.mpr hlo2), if_neg (not_le.mpr hhi2)]
    obtain ⟨hA1, hA2, hA3⟩ := natToDigits_spec (v.num.toNat / v.den)
    have hrd : v.num.toNat % v.den < v.den := Nat.mod_lt _ hden
    have hdvdr : v.den ∣ (v.num.toNat % v.den) * 10 ^ v.den := Dvd.dvd.mul_left hd2 _
    obtain ⟨hfv, hfd9⟩ :=
      fracDigits_val v.den hden v.den v.den (v.num.toNat % v.den) hrd hdvdr le_rfl
    have hdm := Nat.div_add_mod v.num.toNat v.den
    have hc : ((v.den : ℚ)) * ((v.num.toNat / v.den : ℕ) : ℚ)
        + ((v.num.toNat % v.den : ℕ) : ℚ) = ((v.num.toNat : ℕ) : ℚ) := by
      exact_mod_cast hdm
    have hsplit : ((v.num.toNat / v.den : ℕ) : ℚ)
        + ((v.num.toNat % v.den : ℕ) : ℚ) / ((v.den : ℚ)) = v := by
      conv_rhs => rw [← hvq]
      rw [eq_div_iff hdQ, add_mul, div_mul_cancel₀ _ hdQ]
      linear_combination hc
    have hposeq : positionalStr v.num.toNat v.den =
        natToDigits (v.num.toNat / v.den) ++ '.' ::
          (if fracDigits v.den v.den (v.num.toNat % v.den) = [] then ['0']
           else (fracDigits v.den v.den (v.num.toNat % v.den)).map digitChar) := rfl
    by_cases hfz : fracDigits v.den v.den (v.num.toNat % v.den) = []
    · have hr0 : v.num.toNat % v.den = 0 := by
        rw [hfz] at hfv
        have hz : ((v.num.toNat % v.den : ℕ) : ℚ) / (v.den : ℚ) = 0 := by
          rw [← hfv]; simp [fracValQ]
        rcases div_eq_zero_iff.mp hz with hz0 | hz0
        · exact_mod_cast hz0
        · exact absurd hz0 hdQ
      rw [hposeq, if_pos hfz]
      rw [parse_render (natToDigits (v.num.toNat / v.den)) ['0'] hA3 hA2 (by simp)
        (by intro c hc2; rw [List.mem_singleton.mp hc2]; decide)]
      congr 1
      have hlen1 : (['0'] : List Char).length = 1 := rfl
      have hB0 : digitsToNat (['0'] : List Char) = 0 := rfl
      rw [hlen1, hB0, hA1, mkRat_eq_divQ, pow_one]
      push_cast
      have hfin : ((v.num.toNat / v.den : ℕ) : ℚ) = v := by
        rw [hr0] at hsplit
        simpa using hsplit
      have hzd : ((v.num.toNat : ℤ) / (v.den : ℤ)) = ((v.num.toNat / v.den : ℕ) : ℤ) := by
        norm_cast
      rw [hzd, Int.cast_natCast, hfin]
      ring
    · rw [hposeq, if_neg hfz]
      have hBne : (fracDigits v.den v.den (v.num.toNat % v.den)).map digitChar ≠ [] := by
        simpa using hfz
      have hBdig : ∀ c ∈ (fracDigits v.den v.den (v.num.toNat % v.den)).map digitChar,
          c.isDigit = true := by
        intro c hc2
        rcases List.mem_map.mp hc2 with ⟨x, hx, rfl⟩
        exact isDigit_digitChar x (hfd9 x hx)
      rw [parse_render (natToDigits (v.num.toNat / v.den))
        ((fracDigits v.den v.den (v.num.toNat % v.den)).map digitChar) hA3 hA2 hBne hBdig]
      congr 1
      rw [hA1, mkRat_eq_divQ]
      push_cast
      rw [add_div, mul_div_cancel_right₀ _ (by positivity : ((10 : ℚ)) ^
        ((fracDigits v.den v.den (v.num.toNat % v.den)).map digitChar).length ≠ 0)]
      have hBval : ((digitsToNat ((fracDigits v.den v.den (v.num.toNat % v.den)).map
            digitChar) : ℕ) : ℚ) /
            10 ^ ((fracDigits v.den v.den (v.num.toNat % v.den)).map digitChar).length
          = ((v.num.toNat % v.den : ℕ) : ℚ) / ((v.den : ℚ)) := by
        rw [← hfv, fracValQ_digits _ hfd9, List.length_map]
      rw [hBval]
      exact hsplit

/-- C9 counterexample: parsing `"0.0000001"` yields `1e-07`, whose string
rendering is scientific; re-parsing that rendering yields `1.0`, not the
original value. -/
theorem parse_roundtrip_cex :
    parse_currency (some "0.0000001".data) = some (mkRat 1 10000000) ∧
    pyFloatStr (mkRat 1 10000000) = "1e-07".data ∧
    parse_currency (some (pyFloatStr (mkRat 1 10000000))) = some 1 ∧
    (1 : ℚ) ≠ mkRat 1 10000000 :=
  ⟨by decide, by decide, by decide, by decide⟩

/-- Witness for the amended C9 at a concrete in-range value. -/
theorem parse_currency_roundtrip_witness :
    parse_currency (some (pyFloatStr (mkRat 12500 1))) = some (mkRat 12500 1) :=
  parse_currency_roundtrip "12,500".data (mkRat 12500 1) (by decide)
    (Or.inr ⟨by decide, by decide⟩)

end ClaimsAgent
